import Mathlib

/-!
Verification of the agent resource-accounting module
(src/ai/backend/agent/resources.py): the KernelResourceSpec record with its
line-oriented text serialization, the Mount string codec, the bitmask
decoder and the plugin-ordering rule.

Modelling conventions: Python strings are lists of characters; Python
dictionaries are insertion-ordered association lists whose assignment
overwrites in place; Python exceptions are an explicit error type threaded
through Except.  The process-global known_slot_types mapping is passed as
an explicit registry argument.  Decimal is modelled by its digit/exponent
representation (mantissa and a non-negative scale, value mantissa/10^scale);
scientific-notation rendering of exotic exponents is not modelled.
BinarySize and the small enums from ai.backend.common.types are not part of
this module's source; they are modelled from the spec where noted.
-/

/-- Python str modelled as a list of characters. -/
abbrev PyStr := List Char

/-- Characters stripped by Python str.strip(). -/
def pySpace (c : Char) : Bool :=
  c = ' ' || c = '\t' || c = '\n' || c = '\r' || c = Char.ofNat 11 || c = Char.ofNat 12

/-- Python s.strip(): remove leading and trailing whitespace. -/
def pyStrip (s : PyStr) : PyStr :=
  ((s.dropWhile pySpace).reverse.dropWhile pySpace).reverse

/-- Python s.split(sep) for a single-character separator: split at every
occurrence, keeping empty pieces; the empty string yields one empty piece. -/
def splitOnChar (c : Char) : PyStr → List PyStr
  | [] => [[]]
  | x :: xs =>
    let r := splitOnChar c xs
    if x = c then [] :: r
    else
      match r with
      | [] => [[x]]
      | h :: t => (x :: h) :: t

/-- Python line.split(sep, maxsplit=1) when the separator occurs: the text
before the first occurrence paired with everything after it. -/
def splitFirst (c : Char) : PyStr → Option (PyStr × PyStr)
  | [] => none
  | x :: xs =>
    if x = c then some ([], xs)
    else (splitFirst c xs).map (fun p => (x :: p.1, p.2))

/-- Python sep.join(parts) for a single-character separator. -/
def joinSep (c : Char) : List PyStr → PyStr
  | [] => []
  | [p] => p
  | p :: ps => p ++ c :: joinSep c ps

/-- Python sep.join(parts) for a multi-character separator. -/
def joinWith (sep : PyStr) : List PyStr → PyStr
  | [] => []
  | [p] => p
  | p :: ps => p ++ sep ++ joinWith sep ps

/-- Concatenation of a list of strings. -/
def concatAll : List PyStr → PyStr
  | [] => []
  | x :: xs => x ++ concatAll xs

/-- Python str.partition(sep) restricted to how read_from_string uses it:
the text before the first separator paired with the text after it, or the
whole string paired with an empty remainder when the separator is absent. -/
def partitionChar (c : Char) (s : PyStr) : PyStr × PyStr :=
  match splitFirst c s with
  | some p => p
  | none => (s, [])

/-- One decimal digit as a character. -/
def digitCh (d : Nat) : Char := Char.ofNat (48 + d)

/-- Numeric value of a decimal digit character. -/
def chDigit (c : Char) : Nat := c.toNat - 48

/-- Decimal digits of a natural number, most significant first; fuel-driven
so that it reduces definitionally (any fuel at least the input suffices). -/
def natDigitsAux : Nat → Nat → PyStr
  | 0, _ => []
  | fuel + 1, n => if n = 0 then [] else natDigitsAux fuel (n / 10) ++ [digitCh (n % 10)]

/-- Python str(n) for a natural number. -/
def natStr (n : Nat) : PyStr := if n = 0 then [digitCh 0] else natDigitsAux n n

/-- Python str(i) for an integer. -/
def intStr (i : Int) : PyStr :=
  if i < 0 then '-' :: natStr i.natAbs else natStr i.natAbs

/-- Numeric value of a string of decimal digit characters. -/
def natVal (s : PyStr) : Nat := s.foldl (fun a c => a * 10 + chDigit c) 0

def allDigits (s : PyStr) : Bool := s.all Char.isDigit

/-- Parse a non-empty all-digit string as a natural number. -/
def parseNat (s : PyStr) : Option Nat :=
  if s ≠ [] ∧ allDigits s then some (natVal s) else none

/-- Python int(s): an optional sign followed by decimal digits. -/
def parseInt (s : PyStr) : Option Int :=
  match s with
  | [] => none
  | c :: r =>
    if c = '-' then (parseNat r).map (fun n : Nat => -(n : Int))
    else if c = '+' then (parseNat r).map (fun n : Nat => (n : Int))
    else (parseNat (c :: r)).map (fun n : Nat => (n : Int))

/-- Python str.upper() on ASCII letters. -/
def upChar (c : Char) : Char := if c.isLower then Char.ofNat (c.toNat - 32) else c

def pyUpper (s : PyStr) : PyStr := s.map upChar

/-- Python str.lower() on ASCII letters. -/
def lowChar (c : Char) : Char := if c.isUpper then Char.ofNat (c.toNat + 32) else c

def pyLower (s : PyStr) : PyStr := s.map lowChar

/-- Python Decimal restricted to finite plain decimals: the value is
mantissa / 10 ^ scale, mirroring Decimal's digit-tuple representation with
exponent -scale. -/
structure Dec where
  mantissa : Int
  scale : Nat
deriving DecidableEq, Repr

def Dec.ofInt (i : Int) : Dec := ⟨i, 0⟩

/-- Mantissa digits zero-padded on the left so that at least one digit
precedes the decimal point when scale digits follow it. -/
def decDigits (n k : Nat) : PyStr :=
  List.replicate (max (natStr n).length (k + 1) - (natStr n).length) (digitCh 0) ++ natStr n

/-- Unsigned part of str(Decimal): the padded digits with a decimal point
inserted scale places from the right (no point when the scale is zero). -/
def decBody (n k : Nat) : PyStr :=
  if k = 0 then decDigits n k
  else (decDigits n k).take ((decDigits n k).length - k) ++
    '.' :: (decDigits n k).drop ((decDigits n k).length - k)

/-- Python str(Decimal) for a non-positive exponent. -/
def decStr (d : Dec) : PyStr :=
  if d.mantissa < 0 then '-' :: decBody d.mantissa.natAbs d.scale
  else decBody d.mantissa.natAbs d.scale

/-- Decimal(s) on an unsigned plain decimal string: digits with at most one
decimal point; digits and point position are kept as the representation,
exactly as Decimal keeps them. -/
def parseDecCore (s : PyStr) : Option Dec :=
  match splitFirst '.' s with
  | none => (parseNat s).map (fun n => ⟨(n : Int), 0⟩)
  | some (a, b) =>
    if allDigits a ∧ allDigits b ∧ (a ≠ [] ∨ b ≠ []) then
      some ⟨(natVal (a ++ b) : Int), b.length⟩
    else none

/-- Python Decimal(s): optional sign then an unsigned plain decimal. -/
def parseDec (s : PyStr) : Option Dec :=
  match s with
  | [] => none
  | c :: r =>
    if c = '-' then (parseDecCore r).map (fun d => ⟨-d.mantissa, d.scale⟩)
    else if c = '+' then parseDecCore r
    else parseDecCore (c :: r)

/-- Truncation of a Decimal toward zero, as Python int()/BinarySize() do. -/
def decTrunc (d : Dec) : Int := Int.tdiv d.mantissa ((10 : Int) ^ d.scale)

/-- SlotTypes values (ai.backend.common.types): count, bytes, unique. -/
inductive SlotTy where
  | count
  | bytes
  | uniq
deriving DecidableEq, Repr

/-- The process-global known_slot_types mapping, threaded explicitly. -/
abbrev Registry := List (PyStr × SlotTy)

/-- First-match association-list lookup (Python dict indexing; keys are
kept unique by dictSet). -/
def alistFind {α : Type} : List (PyStr × α) → PyStr → Option α
  | [], _ => none
  | (k, v) :: r, s => if k = s then some v else alistFind r s

def alistHas {α : Type} (m : List (PyStr × α)) (k : PyStr) : Bool :=
  (alistFind m k).isSome

/-- Python dict assignment: overwrite in place when the key exists,
otherwise append, preserving insertion order. -/
def dictSet {α : Type} (m : List (PyStr × α)) (k : PyStr) (v : α) : List (PyStr × α) :=
  if alistHas m k then m.map (fun p => if p.1 = k then (k, v) else p) else m ++ [(k, v)]

/-- Python dict built from a pair list by repeated assignment. -/
def dictOfList {α : Type} (l : List (PyStr × α)) : List (PyStr × α) :=
  l.foldl (fun m p => dictSet m p.1 p.2) []

/-- known_slot_types.get(slot_name, 'count'). -/
def regGetD (reg : Registry) (s : PyStr) : SlotTy :=
  (alistFind reg s).getD SlotTy.count

/-- Python exceptions raised by the modelled code. -/
inductive PyErr where
  | keyError
  | valueError
  | invalidOperation
  | jsonError
deriving DecidableEq, Repr

/-- Binary-size units and their suffix letters, largest first.  Modelled from
the spec: BinarySize lives in ai.backend.common.types, outside this module;
the spec describes the "human-readable binary-size suffix form, e.g. 10g". -/
def binUnits : List (Char × Nat) :=
  [('e', 2 ^ 60), ('p', 2 ^ 50), ('t', 2 ^ 40), ('g', 2 ^ 30), ('m', 2 ^ 20), ('k', 2 ^ 10)]

/-- Modelled from the spec: fixed-unit rendering (format spec "m", used for
SCRATCH_SIZE); the quotient is truncated toward zero as Python int() does. -/
def formatM (n : Int) : PyStr := intStr (Int.tdiv n ((2 : Int) ^ 20)) ++ ['m']

/-- Two-decimal rendering used by the auto-scaled format for amounts that
are not whole multiples of the chosen unit (approximates Python's "%.2f"
float formatting; only the whole-multiple branch is relied upon). -/
def twoDecStr (n : Int) (u : Nat) : PyStr :=
  let q := Int.tdiv (100 * n + ((u / 2 : Nat) : Int)) ((u : Nat) : Int)
  intStr (Int.tdiv q 100) ++ '.' ::
    (if q.natAbs % 100 < 10 then digitCh 0 :: natStr (q.natAbs % 100)
     else natStr (q.natAbs % 100))

/-- Modelled from the spec: auto-scaled rendering (format spec "s") used
for byte-typed allocation amounts; the largest unit not exceeding the value
is chosen, whole multiples render exactly (e.g. "10g"). -/
def formatS (n : Int) : PyStr :=
  match binUnits.find? (fun p => decide ((p.2 : Int) ≤ n)) with
  | some (c, u) =>
    if n % ((u : Nat) : Int) = 0 then intStr (Int.tdiv n ((u : Nat) : Int)) ++ [c]
    else twoDecStr n u ++ [c]
  | none => intStr n

/-- Modelled from the spec: BinarySize.from_str / finite_from_str.  A plain
integer parses directly; otherwise the final character (after ASCII
lower-casing) must be a known unit suffix and the rest parses as a Decimal,
which is scaled by the unit and truncated to an integer byte count. -/
def parseBinarySize (s : PyStr) : Option Int :=
  match parseInt s with
  | some n => some n
  | none =>
    match (pyLower s).reverse with
    | [] => none
    | c :: rr =>
      match binUnits.find? (fun p => p.1 == c) with
      | some (_, u) =>
        (parseDec rr.reverse).map (fun d => Int.tdiv (d.mantissa * ((u : Nat) : Int)) ((10 : Int) ^ d.scale))
      | none => none

/-- The display unit the auto-scaled rendering picks for a byte count. -/
def displayUnit (n : Nat) : Nat :=
  match binUnits.find? (fun p => decide (p.2 ≤ n)) with
  | some p => p.2
  | none => 1

def lbrace : Char := Char.ofNat 123

def rbrace : Char := Char.ofNat 125

/-- Characters a JSON string literal emits verbatim. -/
def jsonPlain (c : Char) : Bool :=
  decide (32 ≤ c.toNat) && decide (c.toNat ≤ 126) && c ≠ '"' && c ≠ '\\'

/-- json.dumps escaping of one character (the common escapes; further
control-character and non-ASCII escapes do not occur in the text this
development serializes). -/
def jsonEscCh (c : Char) : PyStr :=
  if c = '"' then ['\\', '"']
  else if c = '\\' then ['\\', '\\']
  else if c = '\n' then ['\\', 'n']
  else if c = '\t' then ['\\', 't']
  else if c = '\r' then ['\\', 'r']
  else [c]

def jsonStrLit (s : PyStr) : PyStr := '"' :: concatAll (s.map jsonEscCh) ++ ['"']

/-- json.dumps of a string-to-string dict with the default separators. -/
def jsonDumps (entries : List (PyStr × PyStr)) : PyStr :=
  lbrace :: joinWith ((", ").toList)
    (entries.map (fun p => jsonStrLit p.1 ++ ':' :: ' ' :: jsonStrLit p.2)) ++ [rbrace]

def jsonUnesc (e : Char) : Option Char :=
  if e = '"' then some '"'
  else if e = '\\' then some '\\'
  else if e = 'n' then some '\n'
  else if e = 't' then some '\t'
  else if e = 'r' then some '\r'
  else none

/-- Body of a JSON string literal after the opening quote: the decoded
string and the remaining input. -/
def parseJStrBody : PyStr → Option (PyStr × PyStr)
  | [] => none
  | c :: r =>
    if c = '"' then some ([], r)
    else if c = '\\' then
      match r with
      | [] => none
      | e :: r2 =>
        match jsonUnesc e with
        | some d => (parseJStrBody r2).map (fun p => (d :: p.1, p.2))
        | none => none
    else (parseJStrBody r).map (fun p => (c :: p.1, p.2))

def parseJStr (s : PyStr) : Option (PyStr × PyStr) :=
  match s with
  | [] => none
  | c :: r => if c = '"' then parseJStrBody r else none

def jsonWs (c : Char) : Bool := c = ' ' || c = '\t' || c = '\n' || c = '\r'

def skipWs (s : PyStr) : PyStr := s.dropWhile jsonWs

/-- Comma-separated "key": "value" pairs of a JSON object, fuel-driven. -/
def parseJEntriesAux : Nat → PyStr → Option (List (PyStr × PyStr) × PyStr)
  | 0, _ => none
  | fuel + 1, s =>
    match parseJStr (skipWs s) with
    | none => none
    | some (k, r1) =>
      match skipWs r1 with
      | ':' :: r2 =>
        match parseJStr (skipWs r2) with
        | none => none
        | some (v, r3) =>
          match skipWs r3 with
          | ',' :: r4 => (parseJEntriesAux fuel r4).map (fun p => ((k, v) :: p.1, p.2))
          | r4 => some ([(k, v)], r4)
      | _ => none

/-- json.loads restricted to the shape SLOTS uses: one object whose keys
and values are strings. -/
def jsonLoadsObj (s : PyStr) : Option (List (PyStr × PyStr)) :=
  match skipWs s with
  | [] => none
  | c :: r =>
    if c = lbrace then
      match skipWs r with
      | [] => none
      | c2 :: r2 =>
        if c2 = rbrace then (if skipWs r2 = [] then some [] else none)
        else
          match parseJEntriesAux (s.length + 1) (c2 :: r2) with
          | none => none
          | some (es, rest) =>
            match skipWs rest with
            | [] => none
            | c3 :: r3 => if c3 = rbrace ∧ skipWs r3 = [] then some es else none
    else none

/-- PurePosixPath in normalized form: the absolute flag plus components,
with empty and "." segments dropped as pathlib drops them. -/
structure PyPath where
  isAbs : Bool
  comps : List PyStr
deriving DecidableEq, Repr

def pathOfStr (s : PyStr) : PyPath :=
  ⟨(match s with | c :: _ => c = '/' | [] => false),
   (splitOnChar '/' s).filter (fun p => !p.isEmpty && p != ['.'])⟩

def strOfPath (p : PyPath) : PyStr :=
  if p.isAbs then '/' :: joinSep '/' p.comps
  else if p.comps = [] then ['.'] else joinSep '/' p.comps

inductive MountTy where
  | bind
  | volume
deriving DecidableEq, Repr

/-- MountPermission (ai.backend.common.types, modelled from the spec):
READ_ONLY = "ro", READ_WRITE = "rw". -/
inductive MountPerm where
  | read_only
  | read_write
deriving DecidableEq, Repr

def permStr : MountPerm → PyStr
  | .read_only => ("ro").toList
  | .read_write => ("rw").toList

def permOfStr (s : PyStr) : Option MountPerm :=
  if s = ("ro").toList then some .read_only
  else if s = ("rw").toList then some .read_write
  else none

/-- A mount source is a Path for bind mounts or a plain string for named
volumes (from_str stores str(source) in the volume case). -/
inductive MountSrc where
  | path (p : PyPath)
  | name (s : PyStr)
deriving DecidableEq, Repr

structure Mount where
  type : MountTy
  source : Option MountSrc
  target : PyPath
  permission : MountPerm
  opts : Option Unit
deriving DecidableEq, Repr

/-- Mount.__str__: "source:target:permission" (an absent source would
render as Python str(None)). -/
def Mount.render (m : Mount) : PyStr :=
  (match m.source with
   | some (.path p) => strOfPath p
   | some (.name s) => s
   | none => ("None").toList) ++ ':' :: strOfPath m.target ++ ':' :: permStr m.permission

/-- Mount.from_str: split on ':' into exactly three fields; an absolute
source is a bind mount, a relative single-segment source is a named volume,
any other source is an error; the target must be absolute; the permission
must be a recognized value. -/
def Mount.from_str (s : PyStr) : Except PyErr Mount :=
  match splitOnChar ':' s with
  | [src, tgt, pm] =>
    let p := pathOfStr src
    match (if p.isAbs then Except.ok (MountTy.bind, MountSrc.path p)
           else if p.comps.length = 1 then
             Except.ok (MountTy.volume, MountSrc.name (strOfPath p))
           else Except.error PyErr.valueError :
           Except PyErr (MountTy × MountSrc)) with
    | .error e => .error e
    | .ok (ty, so) =>
      let t := pathOfStr tgt
      if t.isAbs then
        match permOfStr pm with
        | some pe => .ok ⟨ty, some so, t, pe, none⟩
        | none => .error .valueError
      else .error .valueError
  | _ => .error .valueError

deriving instance DecidableEq for Except

instance decEqDevAlloc : DecidableEq (List (PyStr × Dec)) := inferInstance

instance decEqSlotMap : DecidableEq (List (PyStr × List (PyStr × Dec))) := inferInstance

instance decEqAllocMap : DecidableEq (List (PyStr × List (PyStr × List (PyStr × Dec)))) :=
  inferInstance

/-- KernelResourceSpec.  Requested slots are decimal-as-string values (the
declared field type; ResourceSlot preserves the mapping verbatim per the
spec); allocation amounts are Decimals. -/
structure KernelResourceSpec where
  container_id : PyStr
  slots : List (PyStr × PyStr)
  allocations : List (PyStr × List (PyStr × List (PyStr × Dec)))
  scratch_disk_size : Int
  mounts : List Mount
deriving DecidableEq, Repr

/-- The device:amount piece for one allocation entry (write_to_string's
innermost loop body): byte-typed slots render auto-scaled, others render
with plain Decimal str(). -/
def allocPiece (reg : Registry) (slot : PyStr) (p : PyStr × Dec) : PyStr :=
  p.1 ++ ':' :: (if regGetD reg slot = SlotTy.bytes then formatS (decTrunc p.2) else decStr p.2)

def sharesSfx : PyStr := ("_SHARES").toList

/-- The key of the allocation line written for a slot. -/
def sharesKeyOf (slot : PyStr) : PyStr := pyUpper slot ++ sharesSfx

/-- One SLOTNAME_SHARES line. -/
def sharesLine (reg : Registry) (slot : PyStr) (da : List (PyStr × Dec)) : PyStr :=
  sharesKeyOf slot ++ '=' :: joinSep ',' (da.map (allocPiece reg slot))

/-- write_to_string's guard: the device name must equal the slot name or be
a dot-terminated prefix of it. -/
def devSlotOk (dev slot : PyStr) : Bool :=
  (dev ++ ['.']).isPrefixOf slot || slot == dev

def writeSlotLines (reg : Registry) (dev : PyStr) :
    List (PyStr × List (PyStr × Dec)) → Except PyErr (List PyStr)
  | [] => .ok []
  | (slot, da) :: rest =>
    if devSlotOk dev slot then
      match writeSlotLines reg dev rest with
      | .ok ls => .ok (sharesLine reg slot da :: ls)
      | .error e => .error e
    else .error .valueError

def writeAllocLines (reg : Registry) :
    List (PyStr × List (PyStr × List (PyStr × Dec))) → Except PyErr (List PyStr)
  | [] => .ok []
  | (dev, sm) :: rest =>
    match writeSlotLines reg dev sm with
    | .ok ls =>
      match writeAllocLines reg rest with
      | .ok ls2 => .ok (ls ++ ls2)
      | .error e => .error e
    | .error e => .error e

def cidKey : PyStr := ("CID").toList

def scratchKey : PyStr := ("SCRATCH_SIZE").toList

def mountsKey : PyStr := ("MOUNTS").toList

def slotsKey : PyStr := ("SLOTS").toList

def mountsLineVal (mounts : List Mount) : PyStr := joinSep ',' (mounts.map Mount.render)

/-- The four header lines of the serialized record, in write order. -/
def headerLines (r : KernelResourceSpec) : List PyStr :=
  [cidKey ++ '=' :: r.container_id,
   scratchKey ++ '=' :: formatM r.scratch_disk_size,
   mountsKey ++ '=' :: mountsLineVal r.mounts,
   slotsKey ++ '=' :: jsonDumps r.slots]

/-- KernelResourceSpec.write_to_string, with the process-global
known_slot_types registry passed explicitly. -/
def KernelResourceSpec.write_to_string (reg : Registry) (r : KernelResourceSpec) :
    Except PyErr PyStr :=
  match writeAllocLines reg r.allocations with
  | .error e => .error e
  | .ok shareLines =>
    .ok (concatAll ((headerLines r ++ shareLines).map (fun l => l ++ ['\n'])))

/-- kvpairs construction in read_from_string: split into lines, keep lines
containing '=', strip them, split at the first '='. -/
def kvpairsOf (text : PyStr) : List (PyStr × PyStr) :=
  (splitOnChar '\n' text).foldl
    (fun kvs line =>
      if line.contains '=' then
        match splitFirst '=' (pyStrip line) with
        | some (k, v) => dictSet kvs k v
        | none => kvs
      else kvs) []

/-- Amount parsing for one allocation entry (the body of the try block):
byte-typed slots go through BinarySize.from_str (its unconvertible-value
error is a ValueError), everything else through Decimal (whose parse error
is decimal.InvalidOperation). -/
def parseAllocVal (reg : Registry) (slot : PyStr) (raw : PyStr) : Except PyErr Dec :=
  if regGetD reg slot = SlotTy.bytes then
    match parseBinarySize raw with
    | some n => .ok (Dec.ofInt n)
    | none => .error .valueError
  else
    match parseDec raw with
    | some d => .ok d
    | none => .error .invalidOperation

/-- The per-entry loop over a _SHARES value: entries with an empty device
id or amount are skipped; a KeyError from the try block is caught and the
entry dropped; any other exception propagates and aborts the parse. -/
def parseEntries (reg : Registry) (slot : PyStr) (acc : List (PyStr × Dec)) :
    List PyStr → Except PyErr (List (PyStr × Dec))
  | [] => .ok acc
  | entry :: rest =>
    let pr := partitionChar ':' entry
    if pr.1 = [] ∨ pr.2 = [] then parseEntries reg slot acc rest
    else
      match parseAllocVal reg slot pr.2 with
      | .ok d => parseEntries reg slot (dictSet acc pr.1 d) rest
      | .error .keyError => parseEntries reg slot acc rest
      | .error e => .error e

/-- allocations[device_name][slot_name] = per_device_alloc, with
defaultdict semantics on the outer mapping. -/
def allocAssign (allocs : List (PyStr × List (PyStr × List (PyStr × Dec))))
    (dev slot : PyStr) (pda : List (PyStr × Dec)) :
    List (PyStr × List (PyStr × List (PyStr × Dec))) :=
  if alistHas allocs dev then
    allocs.map (fun p => if p.1 = dev then (dev, dictSet p.2 slot pda) else p)
  else allocs ++ [(dev, [(slot, pda)])]

def endsWithShares (k : PyStr) : Bool := sharesSfx.isSuffixOf k

/-- Slot-name recovery from an allocation key: strip "_SHARES", lower. -/
def slotOfKey (k : PyStr) : PyStr := pyLower (k.take (k.length - 7))

/-- Device-family derivation: slot_name.split('.')[0]. -/
def headSeg (s : PyStr) : PyStr := s.takeWhile (fun c => c != '.')

/-- The _SHARES key loop of read_from_string. -/
def parseSharesAux (reg : Registry)
    (acc : List (PyStr × List (PyStr × List (PyStr × Dec)))) :
    List (PyStr × PyStr) → Except PyErr (List (PyStr × List (PyStr × List (PyStr × Dec))))
  | [] => .ok acc
  | (k, v) :: rest =>
    if endsWithShares k then
      match parseEntries reg (slotOfKey k) [] (splitOnChar ',' v) with
      | .ok pda => parseSharesAux reg (allocAssign acc (headSeg (slotOfKey k)) (slotOfKey k) pda) rest
      | .error e => .error e
    else parseSharesAux reg acc rest

def parseMounts : List PyStr → Except PyErr (List Mount)
  | [] => .ok []
  | m :: rest =>
    match Mount.from_str m with
    | .ok mt =>
      match parseMounts rest with
      | .ok ms => .ok (mt :: ms)
      | .error e => .error e
    | .error e => .error e

/-- kvpairs[k]: a missing key raises KeyError. -/
def getKey (kvs : List (PyStr × PyStr)) (k : PyStr) : Except PyErr PyStr :=
  match alistFind kvs k with
  | some v => .ok v
  | none => .error .keyError

/-- KernelResourceSpec.read_from_string, with the process-global
known_slot_types registry passed explicitly.  Failure of any step
propagates the corresponding Python exception. -/
def KernelResourceSpec.read_from_string (reg : Registry) (text : PyStr) :
    Except PyErr KernelResourceSpec :=
  let kvs := kvpairsOf text
  match parseSharesAux reg [] kvs with
  | .error e => .error e
  | .ok allocs =>
    match getKey kvs mountsKey with
    | .error e => .error e
    | .ok mv =>
      match parseMounts ((splitOnChar ',' mv).filter (fun m => !m.isEmpty)) with
      | .error e => .error e
      | .ok mounts =>
        match getKey kvs scratchKey with
        | .error e => .error e
        | .ok sv =>
          match parseBinarySize sv with
          | none => .error .valueError
          | some scratch =>
            match getKey kvs slotsKey with
            | .error e => .error e
            | .ok jv =>
              match jsonLoadsObj jv with
              | none => .error .jsonError
              | some entries =>
                .ok ⟨(alistFind kvs cidKey).getD (("unknown").toList),
                     dictOfList entries, allocs, scratch, mounts⟩

/-- bitmask2set's while loop, fuel-driven (the mask halves each iteration,
so any fuel exceeding the mask suffices). -/
def bitmask2setAux : Nat → Nat → Nat → List Nat
  | 0, _, _ => []
  | fuel + 1, mask, bpos =>
    if mask = 0 then []
    else (if mask % 2 = 1 then [bpos] else []) ++ bitmask2setAux fuel (mask / 2) (bpos + 1)

/-- bitmask2set: the zero-based positions of the set bits (the returned
frozenset is modelled as the ascending list the loop builds). -/
def bitmask2set (mask : Nat) : List Nat := bitmask2setAux (mask + 1) mask 0

/-- discover_plugins' sort key: intrinsic plugins (cpu, mem) get 0, all
other plugins -1. -/
def accel_lt_intrinsic {α : Type} (item : PyStr × α) : Int :=
  if item.1 = ("cpu").toList ∨ item.1 = ("mem").toList then 0 else -1

/-- Stable insertion, modelling Python's stable list.sort(key=...): an
element is placed before the first element whose key is not smaller. -/
def stableInsert {β : Type} (key : β → Int) (x : β) : List β → List β
  | [] => [x]
  | y :: ys => if key x ≤ key y then x :: y :: ys else y :: stableInsert key x ys

def stableSortByKey {β : Type} (key : β → Int) (l : List β) : List β :=
  l.foldr (stableInsert key) []

/-- ComputePluginContext.discover_plugins: the scanned (name, plugin-class)
pairs re-ordered by the stable sort on accel_lt_intrinsic; the plugin
scanning step itself is an external collaborator, so its output is the
input here. -/
def discover_plugins {α : Type} (scanned : List (PyStr × α)) : List (PyStr × α) :=
  stableSortByKey accel_lt_intrinsic scanned

/-- Membership test for intrinsic plugin names. -/
def isIntrinsic {α : Type} (item : PyStr × α) : Bool :=
  item.1 == ("cpu").toList || item.1 == ("mem").toList

/-- Printable non-space ASCII. -/
def cidCh (c : Char) : Bool := decide (33 ≤ c.toNat) && decide (c.toNat ≤ 126)

/-- Characters allowed in serializable slot names: printable, lower-case
(no upper-case ASCII) and free of the key delimiter. -/
def slotCh (c : Char) : Bool := cidCh c && !c.isUpper && c ≠ '='

/-- Characters allowed in serializable device ids. -/
def devCh (c : Char) : Bool := cidCh c && c ≠ ':' && c ≠ ','

/-- Characters allowed in serializable path components and volume names. -/
def pathCh (c : Char) : Bool := cidCh c && c ≠ '/' && c ≠ ':' && c ≠ ','

def distinctKeys : List PyStr → Bool
  | [] => true
  | k :: r => !r.contains k && distinctKeys r

def pathOkB (p : PyPath) : Bool :=
  p.comps.all (fun comp => !comp.isEmpty && comp != ['.'] && comp.all pathCh)

/-- A mount that Mount.from_str can reconstruct from Mount.__str__. -/
def mountOkB (m : Mount) : Bool :=
  match m with
  | ⟨.bind, some (.path p), t, _, o⟩ =>
    o.isNone && p.isAbs && pathOkB p && t.isAbs && pathOkB t
  | ⟨.volume, some (.name s), t, _, o⟩ =>
    o.isNone && !s.isEmpty && s != ['.'] && s.all pathCh && t.isAbs && pathOkB t
  | _ => false

/-- One allocation entry is serializable: non-empty device id over the
device-id alphabet; a byte-typed amount must be an integral Decimal whose
auto-scaled rendering parses back exactly. -/
def entryOkB (reg : Registry) (slot : PyStr) (e : PyStr × Dec) : Bool :=
  !e.1.isEmpty && e.1.all devCh &&
  (regGetD reg slot != SlotTy.bytes ||
    (e.2.scale == 0 && parseBinarySize (formatS e.2.mantissa) == some e.2.mantissa))

/-- One slot entry of a device is serializable: the device name is the
slot name's leading dot-segment, the slot name is over the slot alphabet,
and the per-device allocation map is a well-formed dict. -/
def slotEntryOkB (reg : Registry) (dev : PyStr) (q : PyStr × List (PyStr × Dec)) : Bool :=
  dev == headSeg q.1 && q.1.all slotCh && distinctKeys (q.2.map Prod.fst) &&
  q.2.all (entryOkB reg q.1)

/-- A record in the image of normal construction, serializable without
loss: printable container id, JSON-plain requested slots forming a dict,
scratch size a whole number of megabytes, well-formed allocation dicts with
every device having at least one slot, and reconstructible mounts. -/
def wfRec (reg : Registry) (r : KernelResourceSpec) : Bool :=
  r.container_id.all cidCh &&
  distinctKeys (r.slots.map Prod.fst) &&
  r.slots.all (fun p => p.1.all jsonPlain && p.2.all jsonPlain) &&
  (r.scratch_disk_size % ((2 : Int) ^ 20) == 0) &&
  distinctKeys (r.allocations.map Prod.fst) &&
  r.allocations.all (fun a =>
    !a.2.isEmpty && distinctKeys (a.2.map Prod.fst) && a.2.all (slotEntryOkB reg a.1)) &&
  r.mounts.all mountOkB

/-- The registry condition stated by the round-trip claim: every allocation
slot name is present in known_slot_types. -/
def allSlotsKnown (reg : Registry) (r : KernelResourceSpec) : Bool :=
  r.allocations.all (fun a => a.2.all (fun q => (alistFind reg q.1).isSome))

/-- The (key, value) pairs of the allocation lines, in write order. -/
def sharesKV (reg : Registry) : List (PyStr × List (PyStr × List (PyStr × Dec))) →
    List (PyStr × PyStr)
  | [] => []
  | (_, sm) :: rest =>
    sm.map (fun q => (sharesKeyOf q.1, joinSep ',' (q.2.map (allocPiece reg q.1)))) ++
      sharesKV reg rest

/-- The (key, value) pairs of all lines of a serialized record, in write
order. -/
def recKVs (reg : Registry) (r : KernelResourceSpec) : List (PyStr × PyStr) :=
  [(cidKey, r.container_id),
   (scratchKey, formatM r.scratch_disk_size),
   (mountsKey, mountsLineVal r.mounts),
   (slotsKey, jsonDumps r.slots)] ++ sharesKV reg r.allocations

/-! Concrete fixtures used by the claim witnesses and counterexamples. -/

/-- Registry for the round-trip witness: a count slot and a bytes slot. -/
def regDemo : Registry :=
  [(("cpu").toList, SlotTy.count), (("x.mem").toList, SlotTy.bytes)]

/-- A fully populated record over regDemo. -/
def recDemo : KernelResourceSpec :=
  ⟨("abc123").toList,
   [(("cpu").toList, ("2").toList), (("mem").toList, ("4g").toList)],
   [(("cpu").toList, [(("cpu").toList,
       [(("0").toList, ⟨2, 0⟩), (("1").toList, ⟨5, 1⟩)])]),
    (("x").toList, [(("x.mem").toList, [(("d0").toList, ⟨10737418240, 0⟩)])])],
   10485760,
   [⟨MountTy.bind, some (MountSrc.path ⟨true, [("data").toList]⟩),
      ⟨true, [("workspace").toList]⟩, MountPerm.read_write, none⟩,
    ⟨MountTy.volume, some (MountSrc.name (("myvol").toList)),
      ⟨true, [("vol").toList]⟩, MountPerm.read_only, none⟩]⟩

/-- Registry whose single slot name carries an upper-case letter. -/
def regU : Registry := [(("Cpu").toList, SlotTy.count)]

/-- A record whose allocation slot name carries an upper-case letter; the
serialized key upper-cases it and the parser lower-cases it back, so the
slot comes back renamed. -/
def recU : KernelResourceSpec :=
  ⟨("c").toList, [],
   [(("Cpu").toList, [(("Cpu").toList, [(("0").toList, ⟨1, 0⟩)])])],
   0, []⟩

/-- Serialized text whose X_SHARES amount was written in binary-size
notation; slot x is absent from the parse-time registry. -/
def textBytesShares : PyStr :=
  ("CID=c\nSCRATCH_SIZE=0m\nMOUNTS=\nSLOTS=\x7b\x7d\nX_SHARES=0:3g\n").toList

/-- Serialized text whose X_SHARES amount is a plain count; slot x is
absent from the parse-time registry. -/
def textCountShares : PyStr :=
  ("CID=c\nSCRATCH_SIZE=0m\nMOUNTS=\nSLOTS=\x7b\x7d\nX_SHARES=0:5\n").toList

/-- A record whose slot name (mem) does not carry its device family (cpu)
as a prefix. -/
def recBad : KernelResourceSpec :=
  ⟨("c").toList, [],
   [(("cpu").toList, [(("mem").toList, [(("0").toList, ⟨1, 0⟩)])])],
   0, []⟩

/-- A text without the mandatory MOUNTS / SLOTS / SCRATCH_SIZE keys. -/
def textC4 : PyStr := ("CID=c\n").toList

/-- A parseable text carrying no CID line. -/
def textNoCid : PyStr :=
  ("SCRATCH_SIZE=0m\nMOUNTS=\nSLOTS=\x7b\x7d\n").toList

/-- The record textNoCid parses to. -/
def recNoCid : KernelResourceSpec := ⟨("unknown").toList, [], [], 0, []⟩

/-- A parseable text with one allocation line. -/
def textC10 : PyStr :=
  ("SCRATCH_SIZE=0m\nMOUNTS=\nSLOTS=\x7b\x7d\nCPU_SHARES=0:1\n").toList

/-- The record textC10 parses to. -/
def recC10 : KernelResourceSpec :=
  ⟨("unknown").toList, [], [(("cpu").toList, [(("cpu").toList,
      [(("0").toList, ⟨1, 0⟩)])])], 0, []⟩

/-- One-slot bytes registry for the binary-size fidelity claim. -/
def regBytes : Registry := [(("x").toList, SlotTy.bytes)]

def slotX : PyStr := ("x").toList

/-! Character-level facts. -/

theorem uint32_le_iff (a b : UInt32) : (a ≤ b) ↔ a.toNat ≤ b.toNat := by
  simp [UInt32.le_def, BitVec.le_def]; rfl

theorem char_le_iff (a b : Char) : (a ≤ b) ↔ a.toNat ≤ b.toNat := by
  rw [Char.le_def, uint32_le_iff]; rfl

theorem charToNat_ofNat {n : Nat} (h : n < 55296) : (Char.ofNat n).toNat = n := by
  unfold Char.ofNat
  rw [dif_pos (Or.inl h)]
  rfl

theorem char_eq_of_toNat_eq {a b : Char} (h : a.toNat = b.toNat) : a = b := by
  apply Char.ext
  exact UInt32.ext_iff.mpr h

theorem char_ofNat_toNat {c : Char} (h : c.toNat < 55296) : Char.ofNat c.toNat = c :=
  char_eq_of_toNat_eq (charToNat_ofNat h)

theorem isLower_iff (c : Char) : c.isLower = true ↔ 97 ≤ c.toNat ∧ c.toNat ≤ 122 := by
  simp only [Char.isLower, Bool.and_eq_true, decide_eq_true_eq, ge_iff_le, uint32_le_iff]
  constructor <;> exact fun h => ⟨h.1, h.2⟩

theorem isUpper_iff (c : Char) : c.isUpper = true ↔ 65 ≤ c.toNat ∧ c.toNat ≤ 90 := by
  simp only [Char.isUpper, Bool.and_eq_true, decide_eq_true_eq, ge_iff_le, uint32_le_iff]
  constructor <;> exact fun h => ⟨h.1, h.2⟩

theorem isDigit_iff (c : Char) : c.isDigit = true ↔ 48 ≤ c.toNat ∧ c.toNat ≤ 57 := by
  simp only [Char.isDigit, Bool.and_eq_true, decide_eq_true_eq, ge_iff_le, uint32_le_iff]
  constructor <;> exact fun h => ⟨h.1, h.2⟩

theorem chDigit_digitCh {d : Nat} (h : d < 10) : chDigit (digitCh d) = d := by
  unfold chDigit digitCh
  rw [charToNat_ofNat (by omega)]
  omega

theorem isDigit_digitCh {d : Nat} (h : d < 10) : (digitCh d).isDigit = true := by
  rw [isDigit_iff]
  unfold digitCh
  rw [charToNat_ofNat (by omega)]
  omega

theorem natDigitsAux_all_digits (fuel n : Nat) :
    ∀ c ∈ natDigitsAux fuel n, c.isDigit = true := by
  induction fuel generalizing n with
  | zero => simp [natDigitsAux]
  | succ f ih =>
    intro c hc
    rw [natDigitsAux] at hc
    by_cases h0 : n = 0
    · simp [h0] at hc
    · rw [if_neg h0] at hc
      rcases List.mem_append.mp hc with h | h
      · exact ih (n / 10) c h
      · rcases List.mem_singleton.mp h with rfl
        exact isDigit_digitCh (Nat.mod_lt n (by omega))

theorem natDigitsAux_foldl (fuel : Nat) :
    ∀ n a, n ≤ fuel →
      List.foldl (fun a c => a * 10 + chDigit c) a (natDigitsAux fuel n) =
        a * 10 ^ (natDigitsAux fuel n).length + n := by
  induction fuel with
  | zero => intro n a h; interval_cases n; simp [natDigitsAux]
  | succ f ih =>
    intro n a h
    by_cases h0 : n = 0
    · subst h0; simp [natDigitsAux]
    · rw [natDigitsAux, if_neg h0]
      have hdiv : n / 10 ≤ f := by
        have : n / 10 < n := Nat.div_lt_self (by omega) (by omega)
        omega
      rw [List.foldl_append, ih (n / 10) a hdiv]
      simp only [List.foldl_cons, List.foldl_nil, List.length_append, List.length_singleton]
      rw [chDigit_digitCh (Nat.mod_lt n (by omega))]
      set k := (natDigitsAux f (n / 10)).length
      calc (a * 10 ^ k + n / 10) * 10 + n % 10
          = a * (10 ^ k * 10) + (10 * (n / 10) + n % 10) := by ring
        _ = a * 10 ^ (k + 1) + n := by rw [Nat.div_add_mod, pow_succ]

theorem natStr_all_digits (n : Nat) : ∀ c ∈ natStr n, c.isDigit = true := by
  unfold natStr
  by_cases h0 : n = 0
  · simp [h0]
    exact isDigit_digitCh (by omega)
  · rw [if_neg h0]
    exact natDigitsAux_all_digits n n

theorem natStr_ne_nil (n : Nat) : natStr n ≠ [] := by
  unfold natStr
  by_cases h0 : n = 0
  · simp [h0]
  · rw [if_neg h0]
    obtain ⟨f, rfl⟩ : ∃ f, n = f + 1 := ⟨n - 1, by omega⟩
    rw [natDigitsAux, if_neg h0]
    simp

theorem natVal_natStr (n : Nat) : natVal (natStr n) = n := by
  unfold natVal natStr
  by_cases h0 : n = 0
  · simp [h0, chDigit_digitCh]
  · rw [if_neg h0, natDigitsAux_foldl n n 0 le_rfl]
    simp

theorem allDigits_iff (s : PyStr) : allDigits s = true ↔ ∀ c ∈ s, c.isDigit = true := by
  unfold allDigits
  exact List.all_eq_true

theorem parseNat_natStr (n : Nat) : parseNat (natStr n) = some n := by
  unfold parseNat
  rw [if_pos ⟨natStr_ne_nil n, (allDigits_iff _).mpr (natStr_all_digits n)⟩, natVal_natStr]

theorem natVal_replicate_zero (j : Nat) (s : PyStr) :
    natVal (List.replicate j (digitCh 0) ++ s) = natVal s := by
  unfold natVal
  rw [List.foldl_append]
  have : List.foldl (fun a c => a * 10 + chDigit c) 0 (List.replicate j (digitCh 0)) = 0 := by
    induction j with
    | zero => rfl
    | succ i ih =>
      rw [List.replicate_succ, List.foldl_cons]
      simpa [chDigit_digitCh] using ih
  rw [this]

/-! Splitting, joining and stripping. -/

theorem splitFirst_eq_none {c : Char} {s : PyStr} (h : ∀ x ∈ s, x ≠ c) :
    splitFirst c s = none := by
  induction s with
  | nil => rfl
  | cons x xs ih =>
    rw [splitFirst, if_neg (h x (List.mem_cons_self x xs)), ih (fun y hy => h y (List.mem_cons_of_mem x hy))]
    rfl

theorem splitFirst_append {c : Char} {a : PyStr} (b : PyStr) (h : ∀ x ∈ a, x ≠ c) :
    splitFirst c (a ++ c :: b) = some (a, b) := by
  induction a with
  | nil => simp [splitFirst]
  | cons x xs ih =>
    rw [List.cons_append, splitFirst, if_neg (h x (List.mem_cons_self x xs)),
      ih (fun y hy => h y (List.mem_cons_of_mem x hy))]
    rfl

theorem splitOnChar_sep_append {c : Char} {a : PyStr} (b : PyStr) (h : ∀ x ∈ a, x ≠ c) :
    splitOnChar c (a ++ c :: b) = a :: splitOnChar c b := by
  induction a with
  | nil => simp [splitOnChar]
  | cons x xs ih =>
    rw [List.cons_append, splitOnChar]
    simp only [if_neg (h x (List.mem_cons_self x xs))]
    rw [ih (fun y hy => h y (List.mem_cons_of_mem x hy))]

theorem splitOnChar_no_sep {c : Char} {a : PyStr} (h : ∀ x ∈ a, x ≠ c) :
    splitOnChar c a = [a] := by
  induction a with
  | nil => rfl
  | cons x xs ih =>
    rw [splitOnChar]
    simp only [if_neg (h x (List.mem_cons_self x xs))]
    rw [ih (fun y hy => h y (List.mem_cons_of_mem x hy))]

theorem splitOnChar_joinSep {c : Char} {parts : List PyStr} (hne : parts ≠ [])
    (h : ∀ p ∈ parts, ∀ x ∈ p, x ≠ c) :
    splitOnChar c (joinSep c parts) = parts := by
  induction parts with
  | nil => exact absurd rfl hne
  | cons p ps ih =>
    cases ps with
    | nil => exact splitOnChar_no_sep (h p (List.mem_cons_self p []))
    | cons q qs =>
      rw [joinSep]
      rw [splitOnChar_sep_append _ (h p (List.mem_cons_self p (q :: qs)))]
      rw [ih (List.cons_ne_nil q qs) (fun r hr => h r (List.mem_cons_of_mem p hr))]
      exact List.cons_ne_nil q qs

theorem concatAll_map_newline (lines : List PyStr) (c : Char) :
    concatAll (lines.map (fun l => l ++ [c])) = joinSep c (lines ++ [[]]) := by
  induction lines with
  | nil => rfl
  | cons l ls ih =>
    rw [List.map_cons, concatAll, ih]
    cases ls with
    | nil => simp [joinSep]
    | cons m ms => simp [joinSep]

theorem splitOnChar_lines {c : Char} {lines : List PyStr}
    (h : ∀ l ∈ lines, ∀ x ∈ l, x ≠ c) :
    splitOnChar c (concatAll (lines.map (fun l => l ++ [c]))) = lines ++ [[]] := by
  rw [concatAll_map_newline]
  apply splitOnChar_joinSep (by simp)
  intro p hp
  rcases List.mem_append.mp hp with hp | hp
  · exact h p hp
  · rcases List.mem_singleton.mp hp with rfl
    simp

theorem dropWhile_cons_false {p : Char → Bool} {x : Char} {xs : PyStr} (h : p x = false) :
    List.dropWhile p (x :: xs) = x :: xs := by
  rw [List.dropWhile_cons, h]
  rfl

theorem pyStrip_noop {s : PyStr} (hne : s ≠ [])
    (h1 : ∀ c, s.head? = some c → pySpace c = false)
    (h2 : ∀ c, s.getLast? = some c → pySpace c = false) :
    pyStrip s = s := by
  obtain ⟨x, xs, rfl⟩ := List.exists_cons_of_ne_nil hne
  unfold pyStrip
  rw [dropWhile_cons_false (h1 x rfl)]
  obtain ⟨y, ys, hy⟩ := List.exists_cons_of_ne_nil (l := (x :: xs).reverse) (by simp)
  rw [hy, dropWhile_cons_false, ← hy, List.reverse_reverse]
  apply h2
  have : ((x :: xs).reverse).head? = some y := by rw [hy]; rfl
  rwa [List.head?_reverse] at this

/-! The Decimal printer/parser round trip. -/

theorem isDigit_ne {c x : Char} (h : c.isDigit = true)
    (hx : ¬(48 ≤ x.toNat ∧ x.toNat ≤ 57)) : c ≠ x :=
  fun he => hx (he ▸ (isDigit_iff c).mp h)

theorem decDigits_all_digits (n k : Nat) : ∀ c ∈ decDigits n k, c.isDigit = true := by
  intro c hc
  rcases List.mem_append.mp hc with h | h
  · rcases List.eq_of_mem_replicate h with rfl
    exact isDigit_digitCh (by omega)
  · exact natStr_all_digits n c h

theorem decDigits_length (n k : Nat) :
    (decDigits n k).length = max (natStr n).length (k + 1) := by
  have h1 : 1 ≤ (natStr n).length := List.length_pos.mpr (natStr_ne_nil n)
  simp only [decDigits, List.length_append, List.length_replicate]
  omega

theorem natVal_decDigits (n k : Nat) : natVal (decDigits n k) = n := by
  rw [decDigits, natVal_replicate_zero, natVal_natStr]

theorem decDigits_ne_nil (n k : Nat) : decDigits n k ≠ [] := by
  intro h
  have := decDigits_length n k
  rw [h] at this
  simp at this
  omega

theorem parseDecCore_decBody (n k : Nat) :
    parseDecCore (decBody n k) = some ⟨(n : Int), k⟩ := by
  by_cases hk : k = 0
  · subst hk
    rw [decBody, if_pos rfl, parseDecCore]
    rw [splitFirst_eq_none (fun x hx => isDigit_ne (decDigits_all_digits n 0 x hx) (by decide))]
    rw [parseNat, if_pos ⟨decDigits_ne_nil n 0, (allDigits_iff _).mpr (decDigits_all_digits n 0)⟩]
    rw [natVal_decDigits]
    rfl
  · rw [decBody, if_neg hk]
    have hDlen : (decDigits n k).length = max (natStr n).length (k + 1) := decDigits_length n k
    have hkD : k < (decDigits n k).length := by omega
    have htl : ((decDigits n k).take ((decDigits n k).length - k)).length =
        (decDigits n k).length - k := by
      rw [List.length_take]
      omega
    have htne : (decDigits n k).take ((decDigits n k).length - k) ≠ [] := by
      intro h
      rw [h] at htl
      simp at htl
      omega
    have hmemtake : ∀ c ∈ (decDigits n k).take ((decDigits n k).length - k), c.isDigit = true :=
      fun c hc => decDigits_all_digits n k c (List.mem_of_mem_take hc)
    have hmemdrop : ∀ c ∈ (decDigits n k).drop ((decDigits n k).length - k), c.isDigit = true :=
      fun c hc => decDigits_all_digits n k c (List.mem_of_mem_drop hc)
    have hsplit : splitFirst '.'
        ((decDigits n k).take ((decDigits n k).length - k) ++
          '.' :: (decDigits n k).drop ((decDigits n k).length - k)) =
        some ((decDigits n k).take ((decDigits n k).length - k),
          (decDigits n k).drop ((decDigits n k).length - k)) :=
      splitFirst_append _ (fun x hx => isDigit_ne (hmemtake x hx) (by decide))
    simp only [parseDecCore, hsplit]
    rw [if_pos ⟨(allDigits_iff _).mpr hmemtake, (allDigits_iff _).mpr hmemdrop, Or.inl htne⟩]
    have hval : natVal ((decDigits n k).take ((decDigits n k).length - k) ++
        (decDigits n k).drop ((decDigits n k).length - k)) = n := by
      rw [List.take_append_drop, natVal_decDigits]
    have hblen : ((decDigits n k).drop ((decDigits n k).length - k)).length = k := by
      rw [List.length_drop]
      omega
    rw [hval, hblen]

theorem decBody_chars (n k : Nat) : ∀ c ∈ decBody n k, c.isDigit = true ∨ c = '.' := by
  intro c hc
  rw [decBody] at hc
  by_cases hk : k = 0
  · rw [if_pos hk] at hc
    exact Or.inl (decDigits_all_digits n k c hc)
  · rw [if_neg hk] at hc
    rcases List.mem_append.mp hc with h | h
    · exact Or.inl (decDigits_all_digits n k c (List.mem_of_mem_take h))
    · rcases List.mem_cons.mp h with rfl | h
      · exact Or.inr rfl
      · exact Or.inl (decDigits_all_digits n k c (List.mem_of_mem_drop h))

theorem decBody_ne_nil (n k : Nat) : decBody n k ≠ [] := by
  rw [decBody]
  by_cases hk : k = 0
  · rw [if_pos hk]
    exact decDigits_ne_nil n k
  · rw [if_neg hk]
    intro h
    rcases List.append_eq_nil.mp h with ⟨_, h2⟩
    exact List.noConfusion h2

theorem parseDec_decStr (d : Dec) : parseDec (decStr d) = some d := by
  obtain ⟨m, k⟩ := d
  rw [decStr]
  by_cases hm : m < 0
  · rw [if_pos hm]
    rw [parseDec]
    rw [if_pos rfl, parseDecCore_decBody]
    simp only [Option.map_some']
    congr 1
    have : (m.natAbs : Int) = -m := by omega
    simp [this]
  · rw [if_neg hm]
    obtain ⟨c, rest, hb⟩ := List.exists_cons_of_ne_nil (decBody_ne_nil m.natAbs k)
    have hc : c.isDigit = true ∨ c = '.' := by
      apply decBody_chars
      rw [hb]
      exact List.mem_cons_self c rest
    have hcm : c ≠ '-' := by
      rcases hc with h | h
      · exact isDigit_ne h (by decide)
      · rw [h]; decide
    have hcp : c ≠ '+' := by
      rcases hc with h | h
      · exact isDigit_ne h (by decide)
      · rw [h]; decide
    rw [hb, parseDec, if_neg hcm, if_neg hcp, ← hb, parseDecCore_decBody]
    congr 1
    have : (m.natAbs : Int) = m := by omega
    simp [this]

/-! Integer strings and the binary-size codec. -/

theorem decStr_int (i : Int) : decStr ⟨i, 0⟩ = intStr i := by
  rw [decStr, intStr]
  have hb : decBody i.natAbs 0 = natStr i.natAbs := by
    rw [decBody, if_pos rfl, decDigits]
    have h1 : 1 ≤ (natStr i.natAbs).length := List.length_pos.mpr (natStr_ne_nil _)
    have h2 : max (natStr i.natAbs).length (0 + 1) - (natStr i.natAbs).length = 0 := by omega
    rw [h2]
    rfl
  simp only
  rw [hb]

theorem parseDec_intStr (i : Int) : parseDec (intStr i) = some ⟨i, 0⟩ := by
  rw [← decStr_int]
  exact parseDec_decStr ⟨i, 0⟩

theorem parseInt_intStr (i : Int) : parseInt (intStr i) = some i := by
  rw [intStr]
  by_cases hm : i < 0
  · rw [if_pos hm, parseInt, if_pos rfl, parseNat_natStr]
    simp only [Option.map_some']
    congr 1
    omega
  · rw [if_neg hm]
    obtain ⟨c, rest, hb⟩ := List.exists_cons_of_ne_nil (natStr_ne_nil i.natAbs)
    have hc : c.isDigit = true := by
      apply natStr_all_digits
      rw [hb]
      exact List.mem_cons_self c rest
    rw [hb, parseInt, if_neg (isDigit_ne hc (by decide)), if_neg (isDigit_ne hc (by decide)),
      ← hb, parseNat_natStr]
    simp only [Option.map_some']
    congr 1
    omega

theorem allDigits_append_false {s : PyStr} {c : Char} (hc : c.isDigit = false) :
    allDigits (s ++ [c]) = false := by
  unfold allDigits
  rw [List.all_append]
  simp [hc]

theorem parseNat_append_nondigit (s : PyStr) {c : Char} (hc : c.isDigit = false) :
    parseNat (s ++ [c]) = none := by
  rw [parseNat, if_neg]
  intro h
  rw [allDigits_append_false hc] at h
  exact Bool.noConfusion h.2

theorem parseInt_append_nondigit (i : Int) {c : Char} (hc : c.isDigit = false) :
    parseInt (intStr i ++ [c]) = none := by
  rw [intStr]
  by_cases hm : i < 0
  · rw [if_pos hm, List.cons_append, parseInt, if_pos rfl, parseNat_append_nondigit _ hc]
    rfl
  · rw [if_neg hm]
    obtain ⟨d, rest, hb⟩ := List.exists_cons_of_ne_nil (natStr_ne_nil i.natAbs)
    have hd : d.isDigit = true := by
      apply natStr_all_digits
      rw [hb]
      exact List.mem_cons_self d rest
    rw [hb, List.cons_append, parseInt, if_neg (isDigit_ne hd (by decide)),
      if_neg (isDigit_ne hd (by decide)), ← List.cons_append, ← hb,
      parseNat_append_nondigit _ hc]
    rfl

theorem isDigit_not_upper {c : Char} (h : c.isDigit = true) : c.isUpper = false := by
  cases hu : c.isUpper
  · rfl
  · exfalso
    have h1 := (isUpper_iff c).mp hu
    have h2 := (isDigit_iff c).mp h
    omega

theorem lowChar_eq_self {c : Char} (h : c.isUpper = false) : lowChar c = c := by
  rw [lowChar, if_neg]
  simp [h]

theorem pyLower_eq_self {s : PyStr} (h : ∀ c ∈ s, c.isUpper = false) : pyLower s = s := by
  unfold pyLower
  rw [List.map_congr_left (fun c hc => lowChar_eq_self (h c hc))]
  exact List.map_id s

theorem intStr_not_upper (i : Int) : ∀ x ∈ intStr i, x.isUpper = false := by
  intro x hx
  rw [intStr] at hx
  by_cases hm : i < 0
  · rw [if_pos hm] at hx
    rcases List.mem_cons.mp hx with rfl | hx
    · decide
    · exact isDigit_not_upper (natStr_all_digits _ x hx)
  · rw [if_neg hm] at hx
    exact isDigit_not_upper (natStr_all_digits _ x hx)

theorem parseBinarySize_unit {q : Int} {c : Char} {u : Nat}
    (hfind : binUnits.find? (fun p => p.1 == c) = some (c, u))
    (hdig : c.isDigit = false) (hup : c.isUpper = false) :
    parseBinarySize (intStr q ++ [c]) = some (q * u) := by
  have h1 : parseInt (intStr q ++ [c]) = none := parseInt_append_nondigit q hdig
  have h2 : pyLower (intStr q ++ [c]) = intStr q ++ [c] := by
    apply pyLower_eq_self
    intro x hx
    rcases List.mem_append.mp hx with hx | hx
    · exact intStr_not_upper q x hx
    · rcases List.mem_singleton.mp hx with rfl
      exact hup
  rw [parseBinarySize, h1, h2]
  simp only [List.reverse_append, List.reverse_cons, List.reverse_nil, List.nil_append,
    List.singleton_append]
  rw [hfind]
  simp only [List.reverse_reverse]
  rw [parseDec_intStr]
  simp only [Option.map_some']
  congr 1
  rw [pow_zero, Int.tdiv_one]

theorem parseBinarySize_formatM {n : Int} (h : n % ((2 : Int) ^ 20) = 0) :
    parseBinarySize (formatM n) = some n := by
  obtain ⟨q, hq⟩ := Int.dvd_of_emod_eq_zero h
  rw [formatM, hq, Int.mul_tdiv_cancel_left _ (by norm_num)]
  rw [parseBinarySize_unit (by rfl) (by decide) (by decide)]
  congr 1
  norm_num
  ring

theorem binUnits_suffix_facts {c : Char} {u : Nat} (hmem : (c, u) ∈ binUnits) :
    binUnits.find? (fun p => p.1 == c) = some (c, u) ∧
      c.isDigit = false ∧ c.isUpper = false ∧ 0 < u := by
  fin_cases hmem <;> exact ⟨by rfl, by decide, by decide, by decide⟩

theorem parseBinarySize_formatS {n : Nat} (h : n % displayUnit n = 0) :
    parseBinarySize (formatS (n : Int)) = some (n : Int) := by
  have hpred : (fun p : Char × Nat => decide ((p.2 : Int) ≤ (n : Int))) =
      (fun p : Char × Nat => decide (p.2 ≤ n)) := by
    funext p
    exact decide_eq_decide.mpr Int.ofNat_le
  rw [formatS, hpred]
  cases hf : binUnits.find? (fun p => decide (p.2 ≤ n)) with
  | none =>
    simp only [parseBinarySize, parseInt_intStr]
  | some p =>
    obtain ⟨c, u⟩ := p
    have hmem : (c, u) ∈ binUnits := List.mem_of_find?_eq_some hf
    obtain ⟨hfind, hdig, hup, hupos⟩ := binUnits_suffix_facts hmem
    have hu : displayUnit n = u := by
      rw [displayUnit, hf]
    rw [hu] at h
    obtain ⟨q, hq⟩ := Nat.dvd_of_mod_eq_zero h
    have huz : ((u : Nat) : Int) ≠ 0 := by
      have : 0 < u := hupos
      omega
    have hmodz : (n : Int) % ((u : Nat) : Int) = 0 := by
      rw [hq]
      push_cast
      exact Int.mul_emod_right _ _
    show parseBinarySize
        (if (n : Int) % ((u : Nat) : Int) = 0 then
          intStr (Int.tdiv (n : Int) ((u : Nat) : Int)) ++ [c]
        else twoDecStr (n : Int) u ++ [c]) = some (n : Int)
    rw [if_pos hmodz]
    have htd : Int.tdiv ((n : Nat) : Int) ((u : Nat) : Int) = (q : Int) := by
      rw [hq]
      push_cast
      exact Int.mul_tdiv_cancel_left _ huz
    rw [htd, parseBinarySize_unit hfind hdig hup]
    congr 1
    rw [hq]
    push_cast
    ring

/-! Dictionary machinery. -/

theorem mem_of_getLastQ {α : Type} {l : List α} {a : α} (h : l.getLast? = some a) : a ∈ l := by
  cases l with
  | nil => exact Option.noConfusion h
  | cons x xs =>
    rw [List.getLast?_eq_getLast _ (List.cons_ne_nil x xs)] at h
    rw [← Option.some_inj.mp h]
    exact List.getLast_mem _

theorem dictSet_fresh {α : Type} {m : List (PyStr × α)} {k : PyStr} (v : α)
    (h : alistHas m k = false) : dictSet m k v = m ++ [(k, v)] := by
  rw [dictSet, if_neg]
  simp [h]

theorem alistFind_append_none {α : Type} {a : List (PyStr × α)} (b : List (PyStr × α))
    {k : PyStr} (h : alistFind a k = none) : alistFind (a ++ b) k = alistFind b k := by
  induction a with
  | nil => rfl
  | cons p rest ih =>
    obtain ⟨pk, pv⟩ := p
    rw [alistFind] at h
    by_cases he : pk = k
    · rw [if_pos he] at h
      exact Option.noConfusion h
    · rw [if_neg he] at h
      rw [List.cons_append, alistFind, if_neg he]
      exact ih h

theorem alistFind_singleton_ne {α : Type} {k k' : PyStr} (v : α) (h : k ≠ k') :
    alistFind [(k, v)] k' = none := by
  rw [alistFind, if_neg h]
  rfl

theorem alistHas_false_iff {α : Type} (m : List (PyStr × α)) (k : PyStr) :
    alistHas m k = false ↔ alistFind m k = none := by
  cases h : alistFind m k <;> simp [alistHas, h]

theorem not_contains_of_distinct_head {k : PyStr} {ks : List PyStr}
    (h : distinctKeys (k :: ks) = true) : ∀ k' ∈ ks, k ≠ k' := by
  rw [distinctKeys, Bool.and_eq_true] at h
  intro k' hk' he
  subst he
  have hc : ks.contains k = true := List.elem_iff.mpr hk'
  rw [hc] at h
  exact Bool.noConfusion h.1

theorem distinct_tail {k : PyStr} {ks : List PyStr}
    (h : distinctKeys (k :: ks) = true) : distinctKeys ks = true := by
  rw [distinctKeys, Bool.and_eq_true] at h
  exact h.2

theorem dictSet_foldl_fresh {α : Type} (l : List (PyStr × α)) :
    ∀ acc : List (PyStr × α),
      (∀ p ∈ l, alistHas acc p.1 = false) →
      distinctKeys (l.map Prod.fst) = true →
      l.foldl (fun m p => dictSet m p.1 p.2) acc = acc ++ l := by
  induction l with
  | nil => intro acc _ _; simp
  | cons p rest ih =>
    intro acc hfresh hnd
    obtain ⟨k, v⟩ := p
    rw [List.map_cons] at hnd
    rw [List.foldl_cons, dictSet_fresh v (hfresh (k, v) (List.mem_cons_self _ _))]
    rw [ih (acc ++ [(k, v)]) ?_ (distinct_tail hnd)]
    · simp
    · intro q hq
      rw [alistHas_false_iff]
      rw [alistFind_append_none _
        ((alistHas_false_iff acc q.1).mp (hfresh q (List.mem_cons_of_mem _ hq)))]
      exact alistFind_singleton_ne v
        (not_contains_of_distinct_head hnd q.1 (List.mem_map_of_mem Prod.fst hq))

theorem dictOfList_distinct {α : Type} {l : List (PyStr × α)}
    (h : distinctKeys (l.map Prod.fst) = true) : dictOfList l = l := by
  rw [dictOfList, dictSet_foldl_fresh l [] (fun p _ => rfl) h]
  rfl

/-! Character sets of the generated lines. -/

theorem pySpace_false_of_ge {c : Char} (h : 33 ≤ c.toNat) : pySpace c = false := by
  simp only [pySpace, Bool.or_eq_false_iff, decide_eq_false_iff_not]
  and_intros <;> (intro he; rw [he] at h; exact absurd h (by decide))

theorem natStr_printable (n : Nat) : ∀ c ∈ natStr n, 33 ≤ c.toNat ∧ c.toNat ≤ 126 := by
  intro c hc
  have := (isDigit_iff c).mp (natStr_all_digits n c hc)
  omega

theorem intStr_printable (i : Int) : ∀ c ∈ intStr i, 33 ≤ c.toNat ∧ c.toNat ≤ 126 := by
  intro c hc
  rw [intStr] at hc
  by_cases hm : i < 0
  · rw [if_pos hm] at hc
    rcases List.mem_cons.mp hc with rfl | hc
    · decide
    · exact natStr_printable _ c hc
  · rw [if_neg hm] at hc
    exact natStr_printable _ c hc

theorem decBody_printable (n k : Nat) : ∀ c ∈ decBody n k, 33 ≤ c.toNat ∧ c.toNat ≤ 126 := by
  intro c hc
  rcases decBody_chars n k c hc with h | rfl
  · have := (isDigit_iff c).mp h
    omega
  · decide

theorem decStr_printable (d : Dec) : ∀ c ∈ decStr d, 33 ≤ c.toNat ∧ c.toNat ≤ 126 := by
  intro c hc
  rw [decStr] at hc
  by_cases hm : d.mantissa < 0
  · rw [if_pos hm] at hc
    rcases List.mem_cons.mp hc with rfl | hc
    · decide
    · exact decBody_printable _ _ c hc
  · rw [if_neg hm] at hc
    exact decBody_printable _ _ c hc

theorem decStr_ne_nil (d : Dec) : decStr d ≠ [] := by
  rw [decStr]
  by_cases hm : d.mantissa < 0
  · rw [if_pos hm]
    exact List.cons_ne_nil _ _
  · rw [if_neg hm]
    exact decBody_ne_nil _ _

theorem binUnits_suffix_letter {c : Char} {u : Nat} (hmem : (c, u) ∈ binUnits) :
    97 ≤ c.toNat ∧ c.toNat ≤ 122 := by
  fin_cases hmem <;> decide

theorem twoDecStr_printable (n : Int) (u : Nat) :
    ∀ c ∈ twoDecStr n u, 33 ≤ c.toNat ∧ c.toNat ≤ 126 := by
  intro c hc
  rw [twoDecStr] at hc
  generalize Int.tdiv (100 * n + ((u / 2 : Nat) : Int)) ((u : Nat) : Int) = q at hc
  rcases List.mem_append.mp hc with hc | hc
  · exact intStr_printable _ c hc
  · rcases List.mem_cons.mp hc with rfl | hc
    · decide
    · by_cases hq : q.natAbs % 100 < 10
      · rw [if_pos hq] at hc
        rcases List.mem_cons.mp hc with rfl | hc
        · decide
        · exact natStr_printable _ c hc
      · rw [if_neg hq] at hc
        exact natStr_printable _ c hc

theorem formatS_printable (n : Int) : ∀ c ∈ formatS n, 33 ≤ c.toNat ∧ c.toNat ≤ 126 := by
  intro c hc
  rw [formatS] at hc
  cases hf : binUnits.find? (fun p => decide ((p.2 : Int) ≤ n)) with
  | none =>
    rw [hf] at hc
    exact intStr_printable _ c hc
  | some p =>
    obtain ⟨s, u⟩ := p
    have hmem := List.mem_of_find?_eq_some hf
    have hs := binUnits_suffix_letter hmem
    rw [hf] at hc
    have hc2 : c ∈ (if n % ((u : Nat) : Int) = 0 then Int.tdiv n ((u : Nat) : Int) |> intStr |>.append [s]
        else twoDecStr n u ++ [s]) := hc
    clear hc
    rw [List.append_eq] at hc2
    by_cases hm : n % ((u : Nat) : Int) = 0
    · rw [if_pos hm] at hc2
      rcases List.mem_append.mp hc2 with hc | hc
      · exact intStr_printable _ c hc
      · rcases List.mem_singleton.mp hc with rfl
        omega
    · rw [if_neg hm] at hc2
      rcases List.mem_append.mp hc2 with hc | hc
      · exact twoDecStr_printable _ _ c hc
      · rcases List.mem_singleton.mp hc with rfl
        omega

theorem formatS_ne_nil (n : Int) : formatS n ≠ [] := by
  rw [formatS]
  cases hf : binUnits.find? (fun p => decide ((p.2 : Int) ≤ n)) with
  | none =>
    rw [intStr]
    by_cases hm : n < 0
    · rw [if_pos hm]; exact List.cons_ne_nil _ _
    · rw [if_neg hm]; exact natStr_ne_nil _
  | some p =>
    obtain ⟨s, u⟩ := p
    by_cases hm : n % ((u : Nat) : Int) = 0 <;> simp [hm]

theorem formatM_printable (n : Int) : ∀ c ∈ formatM n, 33 ≤ c.toNat ∧ c.toNat ≤ 126 := by
  intro c hc
  rw [formatM] at hc
  rcases List.mem_append.mp hc with hc | hc
  · exact intStr_printable _ c hc
  · rcases List.mem_singleton.mp hc with rfl
    decide

theorem upChar_printable {c : Char} (h : 33 ≤ c.toNat ∧ c.toNat ≤ 126) :
    33 ≤ (upChar c).toNat ∧ (upChar c).toNat ≤ 126 := by
  rw [upChar]
  by_cases hl : c.isLower = true
  · rw [if_pos hl]
    have := (isLower_iff c).mp hl
    rw [charToNat_ofNat (by omega)]
    omega
  · rw [if_neg hl]
    exact h

/-! Reconstruction of kvpairs from the written lines. -/

theorem pyStrip_kv_line {k v : PyStr} (c0 : Char) (k' : PyStr) (hk : k = c0 :: k')
    (hc0 : pySpace c0 = false)
    (hlast : ∀ c, v.getLast? = some c → pySpace c = false) :
    pyStrip (k ++ '=' :: v) = k ++ '=' :: v := by
  subst hk
  apply pyStrip_noop (by simp)
  · intro c hc
    simp only [List.cons_append, List.head?_cons, Option.some.injEq] at hc
    subst hc
    exact hc0
  · intro c hc
    cases hv : v with
    | nil =>
      subst hv
      rw [show ('=' :: ([] : PyStr)) = ['='] from rfl, List.getLast?_concat] at hc
      rw [← Option.some_inj.mp hc]
      decide
    | cons y ys =>
      subst hv
      rw [List.getLast?_append_of_ne_nil _ (List.cons_ne_nil '=' (y :: ys))] at hc
      rw [show ('=' :: y :: ys : PyStr) = ['='] ++ (y :: ys) from rfl] at hc
      rw [List.getLast?_append_of_ne_nil _ (List.cons_ne_nil y ys)] at hc
      exact hlast c hc

theorem kvpairs_fold (kvseq : List (PyStr × PyStr)) :
    ∀ acc : List (PyStr × PyStr),
      (∀ p ∈ kvseq, (∀ c ∈ p.1, c ≠ '=') ∧
        pyStrip (p.1 ++ '=' :: p.2) = p.1 ++ '=' :: p.2) →
      List.foldl
        (fun kvs line =>
          if line.contains '=' then
            match splitFirst '=' (pyStrip line) with
            | some (k, v) => dictSet kvs k v
            | none => kvs
          else kvs)
        acc ((kvseq.map (fun p => p.1 ++ '=' :: p.2)) ++ [[]]) =
      kvseq.foldl (fun m p => dictSet m p.1 p.2) acc := by
  induction kvseq with
  | nil =>
    intro acc _
    simp [List.foldl]
  | cons p rest ih =>
    intro acc h
    obtain ⟨k, v⟩ := p
    obtain ⟨hke, hstrip⟩ := h (k, v) (List.mem_cons_self _ _)
    rw [List.map_cons, List.cons_append, List.foldl_cons]
    have hcont : (k ++ '=' :: v).contains '=' = true :=
      List.elem_iff.mpr (List.mem_append_right _ (List.mem_cons_self _ _))
    have hsplit : splitFirst '=' (pyStrip (k ++ '=' :: v)) = some (k, v) := by
      rw [hstrip]
      exact splitFirst_append v hke
    simp only [hcont, if_true, hsplit]
    rw [ih (dictSet acc k v) (fun q hq => h q (List.mem_cons_of_mem _ hq))]
    rfl

theorem kvpairsOf_write (kvseq : List (PyStr × PyStr))
    (hnl : ∀ p ∈ kvseq, ∀ c ∈ p.1 ++ '=' :: p.2, c ≠ '\n')
    (hl : ∀ p ∈ kvseq, (∀ c ∈ p.1, c ≠ '=') ∧
      pyStrip (p.1 ++ '=' :: p.2) = p.1 ++ '=' :: p.2)
    (hnd : distinctKeys (kvseq.map Prod.fst) = true) :
    kvpairsOf (concatAll ((kvseq.map (fun p => p.1 ++ '=' :: p.2)).map
      (fun l => l ++ ['\n']))) = kvseq := by
  rw [kvpairsOf]
  rw [splitOnChar_lines (fun l hll x hx => by
    obtain ⟨p, hp, rfl⟩ := List.mem_map.mp hll
    exact hnl p hp x hx)]
  rw [kvpairs_fold kvseq [] hl]
  rw [dictSet_foldl_fresh kvseq [] (fun p _ => rfl) hnd]
  rfl

/-! Key facts for the serialized lines. -/

theorem cidCh_spec {c : Char} (h : cidCh c = true) : 33 ≤ c.toNat ∧ c.toNat ≤ 126 := by
  simp only [cidCh, Bool.and_eq_true, decide_eq_true_eq] at h
  exact h

theorem slotCh_spec {c : Char} (h : slotCh c = true) :
    (33 ≤ c.toNat ∧ c.toNat ≤ 126) ∧ c.isUpper = false ∧ c ≠ '=' := by
  simp only [slotCh, cidCh, Bool.and_eq_true, decide_eq_true_eq, Bool.not_eq_true',
    decide_eq_false_iff_not] at h
  exact ⟨⟨h.1.1.1, h.1.1.2⟩, h.1.2, h.2⟩

theorem devCh_spec {c : Char} (h : devCh c = true) :
    (33 ≤ c.toNat ∧ c.toNat ≤ 126) ∧ c ≠ ':' ∧ c ≠ ',' := by
  simp only [devCh, cidCh, Bool.and_eq_true, decide_eq_true_eq,
    decide_eq_false_iff_not] at h
  exact ⟨⟨h.1.1.1, h.1.1.2⟩, h.1.2, h.2⟩

theorem pathCh_spec {c : Char} (h : pathCh c = true) :
    (33 ≤ c.toNat ∧ c.toNat ≤ 126) ∧ c ≠ '/' ∧ c ≠ ':' ∧ c ≠ ',' := by
  simp only [pathCh, cidCh, Bool.and_eq_true, decide_eq_true_eq,
    decide_eq_false_iff_not] at h
  exact ⟨⟨h.1.1.1.1, h.1.1.1.2⟩, h.1.1.2, h.1.2, h.2⟩

theorem jsonPlain_spec {c : Char} (h : jsonPlain c = true) :
    (32 ≤ c.toNat ∧ c.toNat ≤ 126) ∧ c ≠ '"' ∧ c ≠ '\\' := by
  simp only [jsonPlain, Bool.and_eq_true, decide_eq_true_eq,
    decide_eq_false_iff_not] at h
  exact ⟨⟨h.1.1.1, h.1.1.2⟩, h.1.2, h.2⟩

theorem ne_of_toNat_lt {c x : Char} (h : 33 ≤ c.toNat) (hx : x.toNat < 33) : c ≠ x :=
  fun he => by rw [he] at h; omega

theorem upChar_not_upper_arg {c : Char} (h : c.isUpper = false) : lowChar (upChar c) = c := by
  rw [upChar]
  by_cases hl : c.isLower = true
  · rw [if_pos hl]
    obtain ⟨h1, h2⟩ := (isLower_iff c).mp hl
    have ht : (Char.ofNat (c.toNat - 32)).toNat = c.toNat - 32 := charToNat_ofNat (by omega)
    have hu : (Char.ofNat (c.toNat - 32)).isUpper = true := by
      rw [isUpper_iff, ht]
      omega
    rw [lowChar, if_pos hu, ht]
    have h3 : c.toNat - 32 + 32 = c.toNat := by omega
    rw [h3]
    exact char_ofNat_toNat (by omega)
  · rw [if_neg hl]
    exact lowChar_eq_self h

theorem pyLower_pyUpper {s : PyStr} (h : ∀ c ∈ s, c.isUpper = false) :
    pyLower (pyUpper s) = s := by
  induction s with
  | nil => rfl
  | cons c cs ih =>
    unfold pyLower pyUpper at ih ⊢
    rw [List.map_cons, List.map_cons,
      upChar_not_upper_arg (h c (List.mem_cons_self c cs)),
      ih (fun x hx => h x (List.mem_cons_of_mem c hx))]

theorem sharesKeyOf_printable {slot : PyStr} (h : ∀ c ∈ slot, slotCh c = true) :
    ∀ c ∈ sharesKeyOf slot, 33 ≤ c.toNat ∧ c.toNat ≤ 126 := by
  intro c hc
  rw [sharesKeyOf] at hc
  rcases List.mem_append.mp hc with hc | hc
  · obtain ⟨d, hd, rfl⟩ := List.mem_map.mp hc
    exact upChar_printable ((slotCh_spec (h d hd)).1)
  · have hs : ∀ x ∈ sharesSfx, 33 ≤ x.toNat ∧ x.toNat ≤ 126 := by decide
    exact hs c hc

theorem upChar_ne_eqch {c : Char} (h : slotCh c = true) : upChar c ≠ '=' := by
  obtain ⟨hp, hu, hne⟩ := slotCh_spec h
  rw [upChar]
  by_cases hl : c.isLower = true
  · rw [if_pos hl]
    obtain ⟨h1, h2⟩ := (isLower_iff c).mp hl
    intro he
    have h3 := congrArg Char.toNat he
    rw [charToNat_ofNat (by omega)] at h3
    have h4 : ('=').toNat = 61 := rfl
    rw [h4] at h3
    omega
  · rw [if_neg hl]
    exact hne

theorem sharesKeyOf_no_eq {slot : PyStr} (h : ∀ c ∈ slot, slotCh c = true) :
    ∀ c ∈ sharesKeyOf slot, c ≠ '=' := by
  intro c hc
  rw [sharesKeyOf] at hc
  rcases List.mem_append.mp hc with hc | hc
  · obtain ⟨d, hd, rfl⟩ := List.mem_map.mp hc
    exact upChar_ne_eqch (h d hd)
  · have hs : ∀ x ∈ sharesSfx, x ≠ '=' := by decide
    exact hs c hc

theorem endsWithShares_sharesKeyOf (slot : PyStr) :
    endsWithShares (sharesKeyOf slot) = true := by
  rw [endsWithShares, sharesKeyOf]
  exact List.isSuffixOf_iff_suffix.mpr (List.suffix_append _ _)

theorem ne_of_endsWithShares {a b : PyStr} (ha : endsWithShares a = true)
    (hb : endsWithShares b = false) : a ≠ b := by
  intro he
  rw [he, hb] at ha
  exact Bool.noConfusion ha

theorem sharesKeyOf_inj {s t : PyStr} (hs : ∀ c ∈ s, c.isUpper = false)
    (ht : ∀ c ∈ t, c.isUpper = false) (h : sharesKeyOf s = sharesKeyOf t) : s = t := by
  rw [sharesKeyOf, sharesKeyOf] at h
  have h2 : pyUpper s = pyUpper t := by rwa [List.append_left_inj] at h
  rw [← pyLower_pyUpper hs, ← pyLower_pyUpper ht, h2]

theorem slotOfKey_sharesKeyOf {slot : PyStr} (h : ∀ c ∈ slot, c.isUpper = false) :
    slotOfKey (sharesKeyOf slot) = slot := by
  rw [slotOfKey, sharesKeyOf]
  have hlen : (pyUpper slot ++ sharesSfx).length - 7 = (pyUpper slot).length := by
    rw [List.length_append]
    rw [pyUpper, List.length_map]
    rfl
  rw [hlen, List.take_left, pyLower_pyUpper h]

/-! The write side produces exactly the recKVs lines. -/

theorem devSlotOk_headSeg (slot : PyStr) : devSlotOk (headSeg slot) slot = true := by
  induction slot with
  | nil => decide
  | cons c cs ih =>
    rw [devSlotOk, headSeg] at ih ⊢
    rw [List.takeWhile_cons]
    by_cases hc : (c != '.') = true
    · rw [if_pos hc, List.cons_append, List.isPrefixOf_cons₂_self, List.cons_beq_cons]
      simpa using ih
    · rw [if_neg hc]
      have hdot : c = '.' := by
        simpa using hc
      subst hdot
      rw [List.nil_append, Bool.or_eq_true]
      left
      rw [List.isPrefixOf_iff_prefix]
      exact ⟨cs, rfl⟩

theorem writeSlotLines_ok (reg : Registry) (dev : PyStr)
    (sm : List (PyStr × List (PyStr × Dec)))
    (h : ∀ q ∈ sm, devSlotOk dev q.1 = true) :
    writeSlotLines reg dev sm = .ok (sm.map (fun q => sharesLine reg q.1 q.2)) := by
  induction sm with
  | nil => rfl
  | cons q rest ih =>
    obtain ⟨slot, da⟩ := q
    rw [writeSlotLines, if_pos (h (slot, da) (List.mem_cons_self _ _)),
      ih (fun p hp => h p (List.mem_cons_of_mem _ hp))]
    rfl

theorem writeAllocLines_ok (reg : Registry)
    (allocs : List (PyStr × List (PyStr × List (PyStr × Dec))))
    (h : ∀ a ∈ allocs, ∀ q ∈ a.2, devSlotOk a.1 q.1 = true) :
    writeAllocLines reg allocs =
      .ok ((sharesKV reg allocs).map (fun p => p.1 ++ '=' :: p.2)) := by
  induction allocs with
  | nil => rfl
  | cons a rest ih =>
    obtain ⟨dev, sm⟩ := a
    rw [writeAllocLines,
      writeSlotLines_ok reg dev sm (h (dev, sm) (List.mem_cons_self _ _)),
      ih (fun b hb => h b (List.mem_cons_of_mem _ hb))]
    rw [sharesKV]
    simp only [List.map_append, List.map_map]
    rfl

theorem write_to_string_ok (reg : Registry) (r : KernelResourceSpec)
    (h : ∀ a ∈ r.allocations, ∀ q ∈ a.2, devSlotOk a.1 q.1 = true) :
    KernelResourceSpec.write_to_string reg r =
      .ok (concatAll (((recKVs reg r).map (fun p => p.1 ++ '=' :: p.2)).map
        (fun l => l ++ ['\n']))) := by
  rw [KernelResourceSpec.write_to_string, writeAllocLines_ok reg r.allocations h]
  rw [recKVs]
  simp only [List.map_append]
  rfl

/-! The Mount codec round trip. -/

theorem mem_joinSep {c : Char} {sep : Char} {parts : List PyStr}
    (h : c ∈ joinSep sep parts) : c = sep ∨ ∃ p ∈ parts, c ∈ p := by
  induction parts with
  | nil => exact absurd h (List.not_mem_nil c)
  | cons p ps ih =>
    cases ps with
    | nil =>
      rw [joinSep] at h
      exact Or.inr ⟨p, List.mem_cons_self p [], h⟩
    | cons q qs =>
      have hjoin : joinSep sep (p :: q :: qs) = p ++ sep :: joinSep sep (q :: qs) := rfl
      rw [hjoin] at h
      rcases List.mem_append.mp h with h | h
      · exact Or.inr ⟨p, List.mem_cons_self _ _, h⟩
      · rcases List.mem_cons.mp h with rfl | h
        · exact Or.inl rfl
        · rcases ih h with h | ⟨r, hr, hcr⟩
          · exact Or.inl h
          · exact Or.inr ⟨r, List.mem_cons_of_mem _ hr, hcr⟩

theorem pathOkB_spec {p : PyPath} (h : pathOkB p = true) :
    ∀ comp ∈ p.comps, comp ≠ [] ∧ comp ≠ ['.'] ∧ ∀ c ∈ comp, pathCh c = true := by
  rw [pathOkB, List.all_eq_true] at h
  intro comp hcomp
  have hc := h comp hcomp
  rw [Bool.and_eq_true, Bool.and_eq_true] at hc
  refine ⟨?_, ?_, List.all_eq_true.mp hc.2⟩
  · intro he
    subst he
    simp at hc
  · intro he
    subst he
    simp at hc

theorem strOfPath_chars {p : PyPath} (h : pathOkB p = true) :
    ∀ c ∈ strOfPath p, (33 ≤ c.toNat ∧ c.toNat ≤ 126) ∧ c ≠ ':' ∧ c ≠ ',' := by
  intro c hc
  have hcomp : ∀ comp ∈ p.comps, ∀ x ∈ comp, pathCh x = true :=
    fun comp hcp x hx => (pathOkB_spec h comp hcp).2.2 x hx
  have hofj : c ∈ joinSep '/' p.comps →
      (33 ≤ c.toNat ∧ c.toNat ≤ 126) ∧ c ≠ ':' ∧ c ≠ ',' := by
    intro hj
    rcases mem_joinSep hj with rfl | ⟨q, hq, hcq⟩
    · exact ⟨by decide, by decide, by decide⟩
    · have := pathCh_spec (hcomp q hq c hcq)
      exact ⟨this.1, this.2.2.1, this.2.2.2⟩
  rw [strOfPath] at hc
  by_cases ha : p.isAbs = true
  · rw [if_pos ha] at hc
    rcases List.mem_cons.mp hc with rfl | hc
    · exact ⟨by decide, by decide, by decide⟩
    · exact hofj hc
  · rw [if_neg ha] at hc
    by_cases hce : p.comps = []
    · rw [if_pos hce] at hc
      rcases List.mem_singleton.mp hc with rfl
      exact ⟨by decide, by decide, by decide⟩
    · rw [if_neg hce] at hc
      exact hofj hc

theorem filter_keep_comps {comps : List PyStr}
    (h : ∀ comp ∈ comps, comp ≠ [] ∧ comp ≠ ['.']) :
    comps.filter (fun p => !p.isEmpty && p != ['.']) = comps := by
  rw [List.filter_eq_self]
  intro comp hcomp
  obtain ⟨h1, h2⟩ := h comp hcomp
  simp [h1, h2]

theorem pathOfStr_strOfPath {p : PyPath} (h : pathOkB p = true) :
    pathOfStr (strOfPath p) = p := by
  obtain ⟨ab, comps⟩ := p
  have hspec : ∀ comp ∈ comps, comp ≠ [] ∧ comp ≠ ['.'] ∧ ∀ c ∈ comp, pathCh c = true :=
    pathOkB_spec h
  have hne : ∀ comp ∈ comps, comp ≠ [] ∧ comp ≠ ['.'] :=
    fun comp hcp => ⟨(hspec comp hcp).1, (hspec comp hcp).2.1⟩
  have hnosl : ∀ comp ∈ comps, ∀ x ∈ comp, x ≠ '/' :=
    fun comp hcp x hx => (pathCh_spec ((hspec comp hcp).2.2 x hx)).2.1
  cases ab with
  | true =>
    have hstr : strOfPath ⟨true, comps⟩ = '/' :: joinSep '/' comps := rfl
    rw [hstr, pathOfStr, PyPath.mk.injEq]
    refine ⟨rfl, ?_⟩
    cases hce : comps with
    | nil => rfl
    | cons c0 cs =>
      subst hce
      have hstep : splitOnChar '/' ('/' :: joinSep '/' (c0 :: cs)) =
          [] :: splitOnChar '/' (joinSep '/' (c0 :: cs)) := rfl
      rw [hstep, splitOnChar_joinSep (List.cons_ne_nil _ _) hnosl]
      have hfil : List.filter (fun p => !p.isEmpty && p != ['.']) ([] :: c0 :: cs) =
          List.filter (fun p => !p.isEmpty && p != ['.']) (c0 :: cs) := rfl
      rw [hfil]
      exact filter_keep_comps hne
  | false =>
    cases hce : comps with
    | nil => rfl
    | cons c0 cs =>
      subst hce
      have hstr : strOfPath ⟨false, c0 :: cs⟩ = joinSep '/' (c0 :: cs) := by
        rw [strOfPath, if_neg (by simp), if_neg (List.cons_ne_nil c0 cs)]
      have hc0 := hne c0 (List.mem_cons_self _ _)
      obtain ⟨x, xs, hx⟩ := List.exists_cons_of_ne_nil hc0.1
      have hxc : x ∈ c0 := by rw [hx]; exact List.mem_cons_self _ _
      have hxne : x ≠ '/' := hnosl c0 (List.mem_cons_self _ _) x hxc
      have hform : ∃ t, joinSep '/' (c0 :: cs) = x :: t := by
        cases cs with
        | nil =>
          refine ⟨xs, ?_⟩
          rw [show joinSep '/' [c0] = c0 from rfl, hx]
        | cons c1 cs2 =>
          refine ⟨xs ++ '/' :: joinSep '/' (c1 :: cs2), ?_⟩
          rw [show joinSep '/' (c0 :: c1 :: cs2) = c0 ++ '/' :: joinSep '/' (c1 :: cs2) from rfl,
            hx]
          rfl
      obtain ⟨t, ht⟩ := hform
      rw [hstr, ht, pathOfStr, PyPath.mk.injEq]
      constructor
      · simp only [decide_eq_false_iff_not]
        exact hxne
      · rw [← ht, splitOnChar_joinSep (List.cons_ne_nil c0 cs) hnosl]
        exact filter_keep_comps hne

theorem permOfStr_permStr (pm : MountPerm) : permOfStr (permStr pm) = some pm := by
  cases pm <;> rfl

theorem strOfPath_ne_nil (p : PyPath) (h : pathOkB p = true) : strOfPath p ≠ [] := by
  rw [strOfPath]
  by_cases ha : p.isAbs = true
  · rw [if_pos ha]
    exact List.cons_ne_nil _ _
  · rw [if_neg ha]
    by_cases hce : p.comps = []
    · rw [if_pos hce]
      exact List.cons_ne_nil _ _
    · rw [if_neg hce]
      obtain ⟨c0, cs, hc⟩ := List.exists_cons_of_ne_nil hce
      have hc0ne : c0 ≠ [] := (pathOkB_spec h c0 (by rw [hc]; exact List.mem_cons_self _ _)).1
      obtain ⟨x, xs, hx⟩ := List.exists_cons_of_ne_nil hc0ne
      rw [hc]
      cases cs with
      | nil =>
        rw [show joinSep '/' [c0] = c0 from rfl, hx]
        exact List.cons_ne_nil _ _
      | cons c1 cs2 =>
        rw [show joinSep '/' (c0 :: c1 :: cs2) = c0 ++ '/' :: joinSep '/' (c1 :: cs2) from rfl,
          hx]
        exact List.cons_ne_nil _ _

theorem mem_render_split {src mid perm : PyStr} {c : Char}
    (hc : c ∈ (src ++ ':' :: mid ++ ':' :: perm : PyStr)) :
    c ∈ src ∨ c = ':' ∨ c ∈ mid ∨ c ∈ perm := by
  rcases List.mem_append.mp hc with h | h
  · rcases List.mem_append.mp h with h | h
    · exact Or.inl h
    · rcases List.mem_cons.mp h with rfl | h
      · exact Or.inr (Or.inl rfl)
      · exact Or.inr (Or.inr (Or.inl h))
  · rcases List.mem_cons.mp h with rfl | h
    · exact Or.inr (Or.inl rfl)
    · exact Or.inr (Or.inr (Or.inr h))

theorem permStr_chars (pm : MountPerm) :
    ∀ x ∈ permStr pm, (33 ≤ x.toNat ∧ x.toNat ≤ 126) ∧ x ≠ ',' := by
  cases pm <;> decide

theorem mount_render_chars {m : Mount} (h : mountOkB m = true) :
    ∀ c ∈ Mount.render m, (33 ≤ c.toNat ∧ c.toNat ≤ 126) ∧ c ≠ ',' := by
  obtain ⟨ty, src, tgt, pm, op⟩ := m
  intro c hc
  cases ty with
  | bind =>
    cases src with
    | none => exact Bool.noConfusion h
    | some s =>
      cases s with
      | name _ => exact Bool.noConfusion h
      | path p =>
        have h2 : (op.isNone && p.isAbs && pathOkB p && tgt.isAbs && pathOkB tgt) = true := h
        simp only [Bool.and_eq_true] at h2
        obtain ⟨⟨⟨⟨_, _⟩, hpo⟩, _⟩, hto⟩ := h2
        have hr : Mount.render ⟨MountTy.bind, some (MountSrc.path p), tgt, pm, op⟩ =
            strOfPath p ++ ':' :: strOfPath tgt ++ ':' :: permStr pm := rfl
        rw [hr] at hc
        rcases mem_render_split hc with hm | rfl | hm | hm
        · have := strOfPath_chars hpo c hm
          exact ⟨this.1, this.2.2⟩
        · exact ⟨by decide, by decide⟩
        · have := strOfPath_chars hto c hm
          exact ⟨this.1, this.2.2⟩
        · exact permStr_chars pm c hm
  | volume =>
    cases src with
    | none => exact Bool.noConfusion h
    | some s =>
      cases s with
      | path _ => exact Bool.noConfusion h
      | name nm =>
        have h2 : (op.isNone && !nm.isEmpty && (nm != ['.']) && nm.all pathCh &&
            tgt.isAbs && pathOkB tgt) = true := h
        simp only [Bool.and_eq_true] at h2
        obtain ⟨⟨⟨⟨⟨_, _⟩, _⟩, hall⟩, _⟩, hto⟩ := h2
        have hr : Mount.render ⟨MountTy.volume, some (MountSrc.name nm), tgt, pm, op⟩ =
            nm ++ ':' :: strOfPath tgt ++ ':' :: permStr pm := rfl
        rw [hr] at hc
        rcases mem_render_split hc with hm | rfl | hm | hm
        · have := pathCh_spec (List.all_eq_true.mp hall c hm)
          exact ⟨this.1, this.2.2.2⟩
        · exact ⟨by decide, by decide⟩
        · have := strOfPath_chars hto c hm
          exact ⟨this.1, this.2.2⟩
        · exact permStr_chars pm c hm

theorem splitThree {src mid pm : PyStr} (h1 : ∀ x ∈ src, x ≠ ':')
    (h2 : ∀ x ∈ mid, x ≠ ':') (h3 : ∀ x ∈ pm, x ≠ ':') :
    splitOnChar ':' (src ++ ':' :: mid ++ ':' :: pm) = [src, mid, pm] := by
  have hshape : (src ++ ':' :: mid ++ ':' :: pm : PyStr) =
      src ++ ':' :: (mid ++ ':' :: pm) := by
    rw [List.append_assoc]
    rfl
  rw [hshape, splitOnChar_sep_append _ h1, splitOnChar_sep_append _ h2,
    splitOnChar_no_sep h3]

theorem from_str_eval {s : PyStr} {a b c : PyStr} (hs : splitOnChar ':' s = [a, b, c]) :
    Mount.from_str s =
      (match (if (pathOfStr a).isAbs then Except.ok (MountTy.bind, MountSrc.path (pathOfStr a))
             else if (pathOfStr a).comps.length = 1 then
               Except.ok (MountTy.volume, MountSrc.name (strOfPath (pathOfStr a)))
             else Except.error PyErr.valueError :
             Except PyErr (MountTy × MountSrc)) with
      | .error e => .error e
      | .ok (ty, so) =>
        if (pathOfStr b).isAbs then
          match permOfStr c with
          | some pe => .ok ⟨ty, some so, pathOfStr b, pe, none⟩
          | none => .error .valueError
        else .error .valueError) := by
  rw [Mount.from_str, hs]

theorem pathOfStr_single {nm : PyStr} (hne : nm ≠ []) (hdot : nm ≠ ['.'])
    (hch : ∀ c ∈ nm, pathCh c = true) : pathOfStr nm = ⟨false, [nm]⟩ := by
  obtain ⟨x, xs, hx⟩ := List.exists_cons_of_ne_nil hne
  have hnosl : ∀ c ∈ nm, c ≠ '/' := fun c hc => (pathCh_spec (hch c hc)).2.1
  subst hx
  have h1 : pathOfStr (x :: xs) =
      ⟨decide (x = '/'),
       (splitOnChar '/' (x :: xs)).filter (fun p => !p.isEmpty && p != ['.'])⟩ := rfl
  rw [h1, PyPath.mk.injEq]
  constructor
  · simp only [decide_eq_false_iff_not]
    exact hnosl x (List.mem_cons_self _ _)
  · rw [splitOnChar_no_sep hnosl, List.filter_cons]
    have hcond : (!(x :: xs : PyStr).isEmpty && ((x :: xs : PyStr) != ['.'])) = true := by
      simp only [List.isEmpty_cons, Bool.not_false, Bool.true_and, bne_iff_ne, ne_eq]
      exact hdot
    rw [if_pos hcond]
    rfl

theorem strOfPath_vol (nm : PyStr) : strOfPath ⟨false, [nm]⟩ = nm := by
  rw [strOfPath, if_neg (by simp), if_neg (List.cons_ne_nil nm [])]
  rfl

theorem from_str_render {m : Mount} (h : mountOkB m = true) :
    Mount.from_str (Mount.render m) = .ok m := by
  obtain ⟨ty, src, tgt, pm, op⟩ := m
  have hpermc : ∀ x ∈ permStr pm, x ≠ ':' := by cases pm <;> decide
  cases ty with
  | bind =>
    cases src with
    | none => exact Bool.noConfusion h
    | some s =>
      cases s with
      | name _ => exact Bool.noConfusion h
      | path p =>
        have h2 : (op.isNone && p.isAbs && pathOkB p && tgt.isAbs && pathOkB tgt) = true := h
        simp only [Bool.and_eq_true] at h2
        obtain ⟨⟨⟨⟨ho, hpa⟩, hpo⟩, hta⟩, hto⟩ := h2
        have hop : op = none := Option.isNone_iff_eq_none.mp ho
        subst hop
        have hr : Mount.render ⟨MountTy.bind, some (MountSrc.path p), tgt, pm, none⟩ =
            strOfPath p ++ ':' :: strOfPath tgt ++ ':' :: permStr pm := rfl
        have hsplit := splitThree (fun x hx => (strOfPath_chars hpo x hx).2.1)
          (fun x hx => (strOfPath_chars hto x hx).2.1) hpermc
        rw [hr, from_str_eval hsplit, pathOfStr_strOfPath hpo, pathOfStr_strOfPath hto,
          if_pos hpa]
        simp only [hta, if_true, permOfStr_permStr]
  | volume =>
    cases src with
    | none => exact Bool.noConfusion h
    | some s =>
      cases s with
      | path _ => exact Bool.noConfusion h
      | name nm =>
        have h2 : (op.isNone && !nm.isEmpty && (nm != ['.']) && nm.all pathCh &&
            tgt.isAbs && pathOkB tgt) = true := h
        simp only [Bool.and_eq_true] at h2
        obtain ⟨⟨⟨⟨⟨ho, hse⟩, hsd⟩, hall⟩, hta⟩, hto⟩ := h2
        have hop : op = none := Option.isNone_iff_eq_none.mp ho
        subst hop
        have hne : nm ≠ [] := by
          intro he
          rw [he] at hse
          exact Bool.noConfusion hse
        have hdot : nm ≠ ['.'] := by
          intro he
          rw [he] at hsd
          simp at hsd
        have hch : ∀ c ∈ nm, pathCh c = true := List.all_eq_true.mp hall
        have hr : Mount.render ⟨MountTy.volume, some (MountSrc.name nm), tgt, pm, none⟩ =
            nm ++ ':' :: strOfPath tgt ++ ':' :: permStr pm := rfl
        have hsplit := splitThree (fun x hx => (pathCh_spec (hch x hx)).2.2.1)
          (fun x hx => (strOfPath_chars hto x hx).2.1) hpermc
        rw [hr, from_str_eval hsplit, pathOfStr_single hne hdot hch,
          pathOfStr_strOfPath hto]
        rw [if_pos (show ([nm] : List PyStr).length = 1 from rfl), strOfPath_vol]
        simp only [hta, if_true, permOfStr_permStr]
        simp

theorem render_ne_nil (m : Mount) : Mount.render m ≠ [] := by
  rw [Mount.render]
  intro he
  have hlen := congrArg List.length he
  simp [List.length_append] at hlen

theorem parseMounts_map {mounts : List Mount} (h : ∀ m ∈ mounts, mountOkB m = true) :
    parseMounts (mounts.map Mount.render) = .ok mounts := by
  induction mounts with
  | nil => rfl
  | cons m0 ms ih =>
    rw [List.map_cons, parseMounts, from_str_render (h m0 (List.mem_cons_self _ _)),
      ih (fun q hq => h q (List.mem_cons_of_mem _ hq))]

theorem parseMounts_render {mounts : List Mount} (h : ∀ m ∈ mounts, mountOkB m = true) :
    parseMounts ((splitOnChar ',' (mountsLineVal mounts)).filter (fun m => !m.isEmpty)) =
      .ok mounts := by
  cases hm : mounts with
  | nil => rfl
  | cons m0 ms =>
    subst hm
    rw [mountsLineVal, splitOnChar_joinSep (by simp)
      (fun p hp x hx => by
        obtain ⟨mm, hmm, rfl⟩ := List.mem_map.mp hp
        exact (mount_render_chars (h mm hmm) x hx).2)]
    rw [List.filter_eq_self.mpr (fun x hx => by
      obtain ⟨mm, hmm, rfl⟩ := List.mem_map.mp hx
      simp only [Bool.not_eq_true']
      rw [← Bool.not_eq_true]
      intro hemp
      exact render_ne_nil mm (List.isEmpty_iff.mp (by simpa using hemp)))]
    exact parseMounts_map h

/-! The JSON object codec round trip. -/

theorem jsonEscCh_plain {c : Char} (h : jsonPlain c = true) : jsonEscCh c = [c] := by
  obtain ⟨hr, hq, hb⟩ := jsonPlain_spec h
  rw [jsonEscCh, if_neg hq, if_neg hb, if_neg, if_neg, if_neg]
  · intro he
    rw [he] at hr
    exact absurd hr.1 (by decide)
  · intro he
    rw [he] at hr
    exact absurd hr.1 (by decide)
  · intro he
    rw [he] at hr
    exact absurd hr.1 (by decide)

theorem parseJStrBody_plain {s : PyStr} (rest : PyStr)
    (h : ∀ c ∈ s, jsonPlain c = true) :
    parseJStrBody (concatAll (s.map jsonEscCh) ++ '"' :: rest) = some (s, rest) := by
  induction s with
  | nil => cases rest <;> rfl
  | cons c cs ih =>
    have hc := h c (List.mem_cons_self _ _)
    obtain ⟨hr, hq, hb⟩ := jsonPlain_spec hc
    have hshape : (concatAll (List.map jsonEscCh (c :: cs)) ++ '"' :: rest : PyStr) =
        c :: (concatAll (cs.map jsonEscCh) ++ '"' :: rest) := by
      rw [List.map_cons, concatAll, jsonEscCh_plain hc]
      rfl
    have hstep : ∀ X : PyStr, parseJStrBody (c :: X) =
        (if c = '"' then some ([], X)
         else if c = '\\' then
           match X with
           | [] => none
           | e :: r2 =>
             match jsonUnesc e with
             | some d => (parseJStrBody r2).map (fun p => (d :: p.1, p.2))
             | none => none
         else (parseJStrBody X).map (fun p => (c :: p.1, p.2))) :=
    fun X => by cases X <;> rfl
    rw [hshape, hstep, if_neg hq, if_neg hb,
      ih (fun x hx => h x (List.mem_cons_of_mem _ hx))]
    rfl

theorem parseJStr_lit {s : PyStr} (rest : PyStr) (h : ∀ c ∈ s, jsonPlain c = true) :
    parseJStr (jsonStrLit s ++ rest) = some (s, rest) := by
  have hshape : (jsonStrLit s ++ rest : PyStr) =
      '"' :: (concatAll (s.map jsonEscCh) ++ '"' :: rest) := by
    rw [jsonStrLit]
    simp [List.append_assoc]
  rw [hshape, parseJStr, if_pos rfl]
  exact parseJStrBody_plain rest h

theorem skipWs_nonws {c : Char} (r : PyStr) (h : jsonWs c = false) :
    skipWs (c :: r) = c :: r := by
  rw [skipWs]
  exact dropWhile_cons_false h

theorem skipWs_space (r : PyStr) : skipWs (' ' :: r) = skipWs r := by
  rw [skipWs, skipWs, List.dropWhile_cons]
  rfl

theorem skipWs_strLit (s rest : PyStr) :
    skipWs (jsonStrLit s ++ rest) = jsonStrLit s ++ rest := by
  have hshape : jsonStrLit s ++ rest =
      '"' :: ((concatAll (s.map jsonEscCh) ++ ['"']) ++ rest) := by
    simp [jsonStrLit]
  rw [hshape]
  exact skipWs_nonws _ (by decide)

theorem parseJEntriesAux_succ (f : Nat) (s : PyStr) :
    parseJEntriesAux (f + 1) s =
      match parseJStr (skipWs s) with
      | none => none
      | some (k, r1) =>
        match skipWs r1 with
        | ':' :: r2 =>
          match parseJStr (skipWs r2) with
          | none => none
          | some (v, r3) =>
            match skipWs r3 with
            | ',' :: r4 => (parseJEntriesAux f r4).map (fun p => ((k, v) :: p.1, p.2))
            | r4 => some ([(k, v)], r4)
        | _ => none := rfl

theorem parseJEntriesAux_space (f : Nat) (s : PyStr) :
    parseJEntriesAux (f + 1) (' ' :: s) = parseJEntriesAux (f + 1) s := by
  rw [parseJEntriesAux_succ, parseJEntriesAux_succ, skipWs_space]

theorem parseJEntriesAux_items (entries : List (PyStr × PyStr)) :
    ∀ f : Nat, entries ≠ [] → entries.length ≤ f →
    (∀ p ∈ entries, (∀ c ∈ p.1, jsonPlain c = true) ∧ (∀ c ∈ p.2, jsonPlain c = true)) →
    parseJEntriesAux f
      (joinWith ((", ").toList)
        (entries.map (fun p => jsonStrLit p.1 ++ ':' :: ' ' :: jsonStrLit p.2)) ++ [rbrace])
      = some (entries, [rbrace]) := by
  induction entries with
  | nil => intro f hne _ _; exact absurd rfl hne
  | cons p rest ih =>
    intro f _ hf hp
    have hf' : rest.length + 1 ≤ f := by simpa using hf
    obtain ⟨g, rfl⟩ : ∃ g, f = g + 1 := ⟨f - 1, by omega⟩
    have hp1 : ∀ c ∈ p.1, jsonPlain c = true := (hp p (List.mem_cons_self _ _)).1
    have hp2 : ∀ c ∈ p.2, jsonPlain c = true := (hp p (List.mem_cons_self _ _)).2
    have hP1 : ∀ r : PyStr, parseJStr (jsonStrLit p.1 ++ r) = some (p.1, r) :=
      fun r => parseJStr_lit r hp1
    have hP2 : ∀ r : PyStr, parseJStr (jsonStrLit p.2 ++ r) = some (p.2, r) :=
      fun r => parseJStr_lit r hp2
    have hcolon : ∀ X : PyStr, skipWs (':' :: X) = ':' :: X :=
      fun X => skipWs_nonws X (by decide)
    have hcomma : ∀ X : PyStr, skipWs (',' :: X) = ',' :: X :=
      fun X => skipWs_nonws X (by decide)
    have hbr : skipWs [rbrace] = [rbrace] := skipWs_nonws _ (by decide)
    cases rest with
    | nil =>
      have hin : joinWith ((", ").toList)
          ([p].map (fun q => jsonStrLit q.1 ++ ':' :: ' ' :: jsonStrLit q.2)) ++ [rbrace]
          = jsonStrLit p.1 ++ (':' :: ' ' :: (jsonStrLit p.2 ++ [rbrace])) := by
        simp [joinWith, List.append_assoc]
      rw [hin, parseJEntriesAux_succ, skipWs_strLit]
      simp only [hP1, hcolon, skipWs_space, skipWs_strLit, hP2, hbr]
      rfl
    | cons q rs =>
      have hsep : ((", ").toList : PyStr) = ',' :: [' '] := rfl
      have hj : joinWith ((", ").toList)
          ((p :: q :: rs).map (fun x => jsonStrLit x.1 ++ ':' :: ' ' :: jsonStrLit x.2))
          = (jsonStrLit p.1 ++ ':' :: ' ' :: jsonStrLit p.2) ++ (", ").toList ++
            joinWith ((", ").toList)
              ((q :: rs).map (fun x => jsonStrLit x.1 ++ ':' :: ' ' :: jsonStrLit x.2)) := rfl
      have hin : joinWith ((", ").toList)
          ((p :: q :: rs).map (fun x => jsonStrLit x.1 ++ ':' :: ' ' :: jsonStrLit x.2)) ++ [rbrace]
          = jsonStrLit p.1 ++ (':' :: ' ' :: (jsonStrLit p.2 ++ (',' :: ' ' ::
            (joinWith ((", ").toList)
              ((q :: rs).map (fun x => jsonStrLit x.1 ++ ':' :: ' ' :: jsonStrLit x.2)) ++ [rbrace])))) := by
        rw [hj, hsep]
        simp [List.append_assoc]
      obtain ⟨g2, rfl⟩ : ∃ g2, g = g2 + 1 := ⟨g - 1, by simp at hf'; omega⟩
      have hIH : parseJEntriesAux (g2 + 1)
          (joinWith ((", ").toList)
            ((q :: rs).map (fun x => jsonStrLit x.1 ++ ':' :: ' ' :: jsonStrLit x.2)) ++ [rbrace])
          = some (q :: rs, [rbrace]) := by
        refine ih (g2 + 1) (by simp) (by simp at hf' ⊢; omega) ?_
        exact fun x hx => hp x (List.mem_cons_of_mem _ hx)
      rw [hin, parseJEntriesAux_succ, skipWs_strLit]
      simp only [hP1, hcolon, skipWs_space, skipWs_strLit, hP2, hcomma,
        parseJEntriesAux_space, hIH]
      rfl

theorem items_len_ge (es : List (PyStr × PyStr)) :
    es.length ≤ (joinWith ((", ").toList)
      (es.map (fun x => jsonStrLit x.1 ++ ':' :: ' ' :: jsonStrLit x.2))).length + 1 := by
  induction es with
  | nil => simp [joinWith]
  | cons p rest ih =>
    cases rest with
    | nil => simp [joinWith]
    | cons q rs =>
      have hj : joinWith ((", ").toList)
          ((p :: q :: rs).map (fun x => jsonStrLit x.1 ++ ':' :: ' ' :: jsonStrLit x.2))
          = (jsonStrLit p.1 ++ ':' :: ' ' :: jsonStrLit p.2) ++ (", ").toList ++
            joinWith ((", ").toList)
              ((q :: rs).map (fun x => jsonStrLit x.1 ++ ':' :: ' ' :: jsonStrLit x.2)) := rfl
      rw [hj]
      have hsep : ((", ").toList : PyStr).length = 2 := rfl
      simp only [List.length_append, List.length_cons, List.length_map] at ih ⊢
      omega

theorem jsonLoadsObj_shape (s : PyStr) (es : List (PyStr × PyStr)) (c : Char) (X : PyStr)
    (h0 : skipWs s = lbrace :: (c :: X))
    (hc : jsonWs c = false) (hcne : ¬ c = rbrace)
    (hent : parseJEntriesAux (s.length + 1) (c :: X) = some (es, [rbrace])) :
    jsonLoadsObj s = some es := by
  have hskip : skipWs (c :: X) = c :: X := skipWs_nonws _ hc
  have hbr : skipWs [rbrace] = [rbrace] := skipWs_nonws _ (by decide)
  have hnil : skipWs ([] : PyStr) = [] := rfl
  simp only [jsonLoadsObj, h0, eq_self_iff_true, if_true, hskip, hent, hbr, hnil,
    and_self]
  rw [if_neg hcne]

theorem jsonLoadsObj_dumps (entries : List (PyStr × PyStr))
    (hp : ∀ p ∈ entries, (∀ c ∈ p.1, jsonPlain c = true) ∧ (∀ c ∈ p.2, jsonPlain c = true)) :
    jsonLoadsObj (jsonDumps entries) = some entries := by
  cases entries with
  | nil => rfl
  | cons p rest =>
    obtain ⟨t, ht⟩ : ∃ t : PyStr, joinWith ((", ").toList)
        ((p :: rest).map (fun x => jsonStrLit x.1 ++ ':' :: ' ' :: jsonStrLit x.2))
        = (jsonStrLit p.1 ++ ':' :: ' ' :: jsonStrLit p.2) ++ t := by
      cases rest with
      | nil => exact ⟨[], (List.append_nil _).symm⟩
      | cons q rs =>
        refine ⟨(", ").toList ++ joinWith ((", ").toList)
          ((q :: rs).map (fun x => jsonStrLit x.1 ++ ':' :: ' ' :: jsonStrLit x.2)), ?_⟩
        have hj : joinWith ((", ").toList)
            ((p :: q :: rs).map (fun x => jsonStrLit x.1 ++ ':' :: ' ' :: jsonStrLit x.2))
            = (jsonStrLit p.1 ++ ':' :: ' ' :: jsonStrLit p.2) ++ (", ").toList ++
              joinWith ((", ").toList)
                ((q :: rs).map (fun x => jsonStrLit x.1 ++ ':' :: ' ' :: jsonStrLit x.2)) := rfl
        rw [hj, List.append_assoc]
    obtain ⟨Y, hI⟩ : ∃ Y : PyStr,
        ((jsonStrLit p.1 ++ ':' :: ' ' :: jsonStrLit p.2) ++ t) ++ [rbrace] = '"' :: Y :=
      ⟨((concatAll (p.1.map jsonEscCh) ++ ['"']) ++ ':' :: ' ' :: jsonStrLit p.2) ++ t ++ [rbrace],
        by simp [jsonStrLit, List.append_assoc]⟩
    have hlen : (p :: rest).length ≤ (jsonDumps (p :: rest)).length + 1 := by
      have hl1 := items_len_ge (p :: rest)
      have hl2 : (joinWith ((", ").toList) ((p :: rest).map
          (fun x => jsonStrLit x.1 ++ ':' :: ' ' :: jsonStrLit x.2))).length + 2
          = (jsonDumps (p :: rest)).length := by
        rw [jsonDumps]
        simp [List.length_append]
      omega
    have hitems := parseJEntriesAux_items (p :: rest) ((jsonDumps (p :: rest)).length + 1)
      (by simp) hlen hp
    rw [ht, hI] at hitems
    have h0 : skipWs (jsonDumps (p :: rest)) = lbrace :: ('"' :: Y) := by
      have hd : jsonDumps (p :: rest) = lbrace :: ('"' :: Y) := by
        rw [jsonDumps, List.cons_append, ht, hI]
      rw [hd]
      exact skipWs_nonws _ (by decide)
    exact jsonLoadsObj_shape _ _ _ _ h0 (by decide) (by decide) hitems

/-! Character classes of rendered amounts, for the read-side splitting. -/

theorem intStr_chars (i : Int) : ∀ c ∈ intStr i, c.isDigit = true ∨ c = '-' := by
  intro c hc
  rw [intStr] at hc
  by_cases hm : i < 0
  · rw [if_pos hm] at hc
    rcases List.mem_cons.mp hc with rfl | hc
    · exact Or.inr rfl
    · exact Or.inl (natStr_all_digits _ c hc)
  · rw [if_neg hm] at hc
    exact Or.inl (natStr_all_digits _ c hc)

theorem twoDecStr_chars (n : Int) (u : Nat) :
    ∀ c ∈ twoDecStr n u, c.isDigit = true ∨ c = '-' ∨ c = '.' := by
  intro c hc
  rw [twoDecStr] at hc
  generalize Int.tdiv (100 * n + ((u / 2 : Nat) : Int)) ((u : Nat) : Int) = q at hc
  rcases List.mem_append.mp hc with hc | hc
  · rcases intStr_chars _ c hc with h | h
    · exact Or.inl h
    · exact Or.inr (Or.inl h)
  · rcases List.mem_cons.mp hc with rfl | hc
    · exact Or.inr (Or.inr rfl)
    · by_cases hq : q.natAbs % 100 < 10
      · rw [if_pos hq] at hc
        rcases List.mem_cons.mp hc with rfl | hc
        · exact Or.inl (by decide)
        · exact Or.inl (natStr_all_digits _ c hc)
      · rw [if_neg hq] at hc
        exact Or.inl (natStr_all_digits _ c hc)

theorem formatS_chars (n : Int) :
    ∀ c ∈ formatS n,
      c.isDigit = true ∨ c = '-' ∨ c = '.' ∨ (97 ≤ c.toNat ∧ c.toNat ≤ 122) := by
  intro c hc
  rw [formatS] at hc
  cases hf : binUnits.find? (fun p => decide ((p.2 : Int) ≤ n)) with
  | none =>
    rw [hf] at hc
    rcases intStr_chars _ c hc with h | h
    · exact Or.inl h
    · exact Or.inr (Or.inl h)
  | some p =>
    obtain ⟨s, u⟩ := p
    have hmem := List.mem_of_find?_eq_some hf
    have hs := binUnits_suffix_letter hmem
    rw [hf] at hc
    have hc2 : c ∈ (if n % ((u : Nat) : Int) = 0 then
        intStr (Int.tdiv n ((u : Nat) : Int)) ++ [s]
      else twoDecStr n u ++ [s]) := hc
    clear hc
    by_cases hm : n % ((u : Nat) : Int) = 0
    · rw [if_pos hm] at hc2
      rcases List.mem_append.mp hc2 with hc | hc
      · rcases intStr_chars _ c hc with h | h
        · exact Or.inl h
        · exact Or.inr (Or.inl h)
      · rcases List.mem_singleton.mp hc with rfl
        exact Or.inr (Or.inr (Or.inr hs))
    · rw [if_neg hm] at hc2
      rcases List.mem_append.mp hc2 with hc | hc
      · rcases twoDecStr_chars _ _ c hc with h | h | h
        · exact Or.inl h
        · exact Or.inr (Or.inl h)
        · exact Or.inr (Or.inr (Or.inl h))
      · rcases List.mem_singleton.mp hc with rfl
        exact Or.inr (Or.inr (Or.inr hs))

theorem decStr_chars_set (d : Dec) :
    ∀ c ∈ decStr d, c.isDigit = true ∨ c = '-' ∨ c = '.' := by
  intro c hc
  rw [decStr] at hc
  by_cases hm : d.mantissa < 0
  · rw [if_pos hm] at hc
    rcases List.mem_cons.mp hc with rfl | hc
    · exact Or.inr (Or.inl rfl)
    · rcases decBody_chars _ _ c hc with h | h
      · exact Or.inl h
      · exact Or.inr (Or.inr h)
  · rw [if_neg hm] at hc
    rcases decBody_chars _ _ c hc with h | h
    · exact Or.inl h
    · exact Or.inr (Or.inr h)

theorem amountCh_ne {c : Char}
    (h : c.isDigit = true ∨ c = '-' ∨ c = '.' ∨ (97 ≤ c.toNat ∧ c.toNat ≤ 122)) :
    c ≠ ',' ∧ c ≠ ':' := by
  rcases h with h | rfl | rfl | h
  · exact ⟨fun he => by subst he; exact absurd h (by decide),
      fun he => by subst he; exact absurd h (by decide)⟩
  · exact ⟨by decide, by decide⟩
  · exact ⟨by decide, by decide⟩
  · exact ⟨fun he => by subst he; exact absurd h (by decide),
      fun he => by subst he; exact absurd h (by decide)⟩

theorem allocPiece_chars {reg : Registry} {slot : PyStr} {e : PyStr × Dec}
    (hdev : ∀ c ∈ e.1, devCh c = true) :
    ∀ x ∈ allocPiece reg slot e, x ≠ ',' := by
  intro x hx
  rw [allocPiece] at hx
  rcases List.mem_append.mp hx with hx | hx
  · exact (devCh_spec (hdev x hx)).2.2
  · rcases List.mem_cons.mp hx with rfl | hx
    · decide
    · by_cases hb : regGetD reg slot = SlotTy.bytes
      · rw [if_pos hb] at hx
        exact (amountCh_ne (formatS_chars _ x hx)).1
      · rw [if_neg hb] at hx
        have h4 : x.isDigit = true ∨ x = '-' ∨ x = '.' ∨ (97 ≤ x.toNat ∧ x.toNat ≤ 122) := by
          rcases decStr_chars_set _ x hx with h | h | h
          · exact Or.inl h
          · exact Or.inr (Or.inl h)
          · exact Or.inr (Or.inr (Or.inl h))
        exact (amountCh_ne h4).1

theorem allocPiece_printable {reg : Registry} {slot : PyStr} {e : PyStr × Dec}
    (hdev : ∀ c ∈ e.1, devCh c = true) :
    ∀ x ∈ allocPiece reg slot e, 33 ≤ x.toNat ∧ x.toNat ≤ 126 := by
  intro x hx
  rw [allocPiece] at hx
  rcases List.mem_append.mp hx with hx | hx
  · exact (devCh_spec (hdev x hx)).1
  · rcases List.mem_cons.mp hx with rfl | hx
    · decide
    · by_cases hb : regGetD reg slot = SlotTy.bytes
      · rw [if_pos hb] at hx
        exact formatS_printable _ x hx
      · rw [if_neg hb] at hx
        exact decStr_printable _ x hx

theorem sharesVal_printable {reg : Registry} {slot : PyStr} {da : List (PyStr × Dec)}
    (hdev : ∀ e ∈ da, ∀ c ∈ e.1, devCh c = true) :
    ∀ x ∈ joinSep ',' (da.map (allocPiece reg slot)), 33 ≤ x.toNat ∧ x.toNat ≤ 126 := by
  intro x hx
  rcases mem_joinSep hx with rfl | ⟨p, hp, hxp⟩
  · exact ⟨by decide, by decide⟩
  · obtain ⟨e, he, rfl⟩ := List.mem_map.mp hp
    exact allocPiece_printable (hdev e he) x hxp

theorem mem_joinWith {c : Char} {sep : PyStr} {parts : List PyStr}
    (h : c ∈ joinWith sep parts) : c ∈ sep ∨ ∃ p ∈ parts, c ∈ p := by
  induction parts with
  | nil => exact absurd h (List.not_mem_nil c)
  | cons p ps ih =>
    cases ps with
    | nil =>
      rw [joinWith] at h
      exact Or.inr ⟨p, List.mem_cons_self p [], h⟩
    | cons q qs =>
      have hjoin : joinWith sep (p :: q :: qs) = p ++ sep ++ joinWith sep (q :: qs) := rfl
      rw [hjoin] at h
      rcases List.mem_append.mp h with h | h
      · rcases List.mem_append.mp h with h | h
        · exact Or.inr ⟨p, List.mem_cons_self _ _, h⟩
        · exact Or.inl h
      · rcases ih h with h | ⟨r, hr, hcr⟩
        · exact Or.inl h
        · exact Or.inr ⟨r, List.mem_cons_of_mem _ hr, hcr⟩

theorem concatAll_singletons (s : PyStr) : concatAll (s.map (fun c => [c])) = s := by
  induction s with
  | nil => rfl
  | cons c cs ih =>
    rw [List.map_cons, concatAll, ih]
    rfl

theorem jsonStrLit_plain_eq {s : PyStr} (h : ∀ c ∈ s, jsonPlain c = true) :
    jsonStrLit s = ('"' :: s) ++ ['"'] := by
  rw [jsonStrLit]
  have hmap : s.map jsonEscCh = s.map (fun c => [c]) :=
    List.map_congr_left (fun c hc => jsonEscCh_plain (h c hc))
  rw [hmap, concatAll_singletons]

theorem jsonStrLit_chars {s : PyStr} (h : ∀ c ∈ s, jsonPlain c = true) :
    ∀ x ∈ jsonStrLit s, 32 ≤ x.toNat ∧ x.toNat ≤ 126 := by
  intro x hx
  rw [jsonStrLit_plain_eq h] at hx
  rcases List.mem_append.mp hx with hx | hx
  · rcases List.mem_cons.mp hx with rfl | hx
    · exact ⟨by decide, by decide⟩
    · exact (jsonPlain_spec (h x hx)).1
  · rcases List.mem_singleton.mp hx with rfl
    exact ⟨by decide, by decide⟩

theorem jsonDumps_chars {es : List (PyStr × PyStr)}
    (h : ∀ p ∈ es, (∀ c ∈ p.1, jsonPlain c = true) ∧ (∀ c ∈ p.2, jsonPlain c = true)) :
    ∀ x ∈ jsonDumps es, 32 ≤ x.toNat ∧ x.toNat ≤ 126 := by
  intro x hx
  rw [jsonDumps] at hx
  rcases List.mem_cons.mp hx with rfl | hx
  · exact ⟨by decide, by decide⟩
  · rcases List.mem_append.mp hx with hx | hx
    · rcases mem_joinWith hx with hx | ⟨pt, hpt, hxp⟩
      · have hsep : ∀ y ∈ ((", ").toList : PyStr), 32 ≤ y.toNat ∧ y.toNat ≤ 126 := by decide
        exact hsep x hx
      · obtain ⟨p, hp, rfl⟩ := List.mem_map.mp hpt
        rcases List.mem_append.mp hxp with hx2 | hx2
        · exact jsonStrLit_chars (h p hp).1 x hx2
        · rcases List.mem_cons.mp hx2 with rfl | hx2
          · exact ⟨by decide, by decide⟩
          · rcases List.mem_cons.mp hx2 with rfl | hx2
            · exact ⟨by decide, by decide⟩
            · exact jsonStrLit_chars (h p hp).2 x hx2
    · rcases List.mem_singleton.mp hx with rfl
      exact ⟨by decide, by decide⟩

/-! The read side rebuilds each per-device allocation dict. -/

theorem partitionChar_append {c : Char} {a : PyStr} (b : PyStr) (h : ∀ x ∈ a, x ≠ c) :
    partitionChar c (a ++ c :: b) = (a, b) := by
  rw [partitionChar, splitFirst_append b h]

theorem parseAllocVal_count {reg : Registry} {slot : PyStr} (d : Dec)
    (h : ¬ regGetD reg slot = SlotTy.bytes) :
    parseAllocVal reg slot (decStr d) = .ok d := by
  rw [parseAllocVal, if_neg h, parseDec_decStr]

theorem parseAllocVal_bytes {reg : Registry} {slot : PyStr} (d : Dec)
    (h : regGetD reg slot = SlotTy.bytes) (h0 : d.scale = 0)
    (hp : parseBinarySize (formatS d.mantissa) = some d.mantissa) :
    parseAllocVal reg slot (formatS (decTrunc d)) = .ok d := by
  have ht : decTrunc d = d.mantissa := by
    rw [decTrunc, h0, pow_zero, Int.tdiv_one]
  rw [ht, parseAllocVal, if_pos h, hp]
  obtain ⟨m, s⟩ := d
  have hs : s = 0 := h0
  subst hs
  rfl

theorem parseEntries_piece (reg : Registry) (slot : PyStr) :
    ∀ (da acc : List (PyStr × Dec)),
    (∀ e ∈ da, alistHas acc e.1 = false) →
    distinctKeys (da.map Prod.fst) = true →
    (∀ e ∈ da, entryOkB reg slot e = true) →
    parseEntries reg slot acc (da.map (allocPiece reg slot)) = .ok (acc ++ da) := by
  intro da
  induction da with
  | nil =>
    intro acc _ _ _
    simp [parseEntries]
  | cons e da' ih =>
    intro acc hfresh hnd hok
    obtain ⟨dvc, amt⟩ := e
    have hokh := hok (dvc, amt) (List.mem_cons_self _ _)
    rw [entryOkB, Bool.and_eq_true, Bool.and_eq_true] at hokh
    obtain ⟨⟨hne, hdev⟩, hby⟩ := hokh
    have hdev' : ∀ c ∈ dvc, devCh c = true := List.all_eq_true.mp hdev
    have hdne : dvc ≠ [] := by
      cases dvc with
      | nil => exact Bool.noConfusion hne
      | cons x xs => exact List.cons_ne_nil x xs
    have hnc : ∀ x ∈ dvc, x ≠ ':' := fun x hx => (devCh_spec (hdev' x hx)).2.1
    have hamt : (if regGetD reg slot = SlotTy.bytes then formatS (decTrunc amt)
        else decStr amt) ≠ [] := by
      by_cases hb : regGetD reg slot = SlotTy.bytes
      · rw [if_pos hb]; exact formatS_ne_nil _
      · rw [if_neg hb]; exact decStr_ne_nil _
    rw [List.map_cons, parseEntries]
    have hpart : partitionChar ':' (allocPiece reg slot (dvc, amt)) =
        (dvc, if regGetD reg slot = SlotTy.bytes then formatS (decTrunc amt)
          else decStr amt) := by
      rw [allocPiece]
      exact partitionChar_append _ hnc
    simp only [hpart]
    rw [if_neg (by
      rintro (h | h)
      · exact hdne h
      · exact hamt h)]
    have hval : parseAllocVal reg slot
        (if regGetD reg slot = SlotTy.bytes then formatS (decTrunc amt) else decStr amt) =
        .ok amt := by
      by_cases hb : regGetD reg slot = SlotTy.bytes
      · rw [if_pos hb]
        rw [hb] at hby
        have hby2 : ((amt.scale == 0) && (parseBinarySize (formatS amt.mantissa) ==
            some amt.mantissa)) = true := by
          simpa using hby
        rw [Bool.and_eq_true] at hby2
        exact parseAllocVal_bytes amt hb (by simpa using hby2.1) (eq_of_beq hby2.2)
      · rw [if_neg hb]
        exact parseAllocVal_count amt hb
    rw [hval]
    show parseEntries reg slot (dictSet acc dvc amt) (List.map (allocPiece reg slot) da') =
      Except.ok (acc ++ (dvc, amt) :: da')
    have hf1 : alistHas acc dvc = false := hfresh (dvc, amt) (List.mem_cons_self _ _)
    rw [dictSet_fresh amt hf1]
    rw [ih (acc ++ [(dvc, amt)]) ?_ (distinct_tail hnd) (fun q hq => hok q (List.mem_cons_of_mem _ hq))]
    · rw [List.append_assoc]
      rfl
    · intro q hq
      rw [alistHas_false_iff]
      rw [alistFind_append_none _
        ((alistHas_false_iff acc q.1).mp (hfresh q (List.mem_cons_of_mem _ hq)))]
      exact alistFind_singleton_ne amt
        (not_contains_of_distinct_head hnd q.1 (List.mem_map_of_mem Prod.fst hq))

theorem parseEntries_write (reg : Registry) (slot : PyStr) (da : List (PyStr × Dec))
    (hnd : distinctKeys (da.map Prod.fst) = true)
    (hok : ∀ e ∈ da, entryOkB reg slot e = true) :
    parseEntries reg slot []
      (splitOnChar ',' (joinSep ',' (da.map (allocPiece reg slot)))) = .ok da := by
  cases hda : da with
  | nil => rfl
  | cons e0 da' =>
    rw [← hda]
    rw [splitOnChar_joinSep (by rw [hda]; simp) (fun p hp x hx => by
      obtain ⟨ee, hee, rfl⟩ := List.mem_map.mp hp
      have hokk := hok ee hee
      rw [entryOkB, Bool.and_eq_true, Bool.and_eq_true] at hokk
      exact allocPiece_chars (List.all_eq_true.mp hokk.1.2) x hx)]
    exact parseEntries_piece reg slot da [] (fun e _ => rfl) hnd hok

theorem alistFind_none {α : Type} {m : List (PyStr × α)} {k : PyStr}
    (h : ∀ p ∈ m, p.1 ≠ k) : alistFind m k = none := by
  induction m with
  | nil => rfl
  | cons p rest ih =>
    obtain ⟨pk, pv⟩ := p
    rw [alistFind, if_neg (h (pk, pv) (List.mem_cons_self _ _)),
      ih (fun q hq => h q (List.mem_cons_of_mem _ hq))]

theorem allocAssign_new (allocs : List (PyStr × List (PyStr × List (PyStr × Dec))))
    (dev slot : PyStr) (pda : List (PyStr × Dec)) (h : ∀ p ∈ allocs, p.1 ≠ dev) :
    allocAssign allocs dev slot pda = allocs ++ [(dev, [(slot, pda)])] := by
  rw [allocAssign, if_neg]
  rw [alistHas, alistFind_none h]
  exact Bool.noConfusion

theorem allocAssign_last (acc0 : List (PyStr × List (PyStr × List (PyStr × Dec))))
    (cur : List (PyStr × List (PyStr × Dec))) (dev slot : PyStr)
    (pda : List (PyStr × Dec)) (h0 : ∀ p ∈ acc0, p.1 ≠ dev)
    (hs : alistHas cur slot = false) :
    allocAssign (acc0 ++ [(dev, cur)]) dev slot pda =
      acc0 ++ [(dev, cur ++ [(slot, pda)])] := by
  have hhas : alistHas (acc0 ++ [(dev, cur)]) dev = true := by
    rw [alistHas, alistFind_append_none _ (alistFind_none h0), alistFind, if_pos rfl]
    rfl
  rw [allocAssign, if_pos hhas, List.map_append]
  have hmap : acc0.map (fun p => if p.1 = dev then (dev, dictSet p.2 slot pda) else p)
      = acc0 := by
    rw [List.map_congr_left (fun p hp => if_neg (h0 p hp))]
    exact List.map_id _
  rw [hmap]
  have hone : ([(dev, cur)].map
      (fun p => if p.1 = dev then (dev, dictSet p.2 slot pda) else p))
      = [(dev, cur ++ [(slot, pda)])] := by
    rw [List.map_singleton, if_pos rfl, dictSet_fresh pda hs]
  rw [hone]

theorem parseSharesAux_skip (reg : Registry)
    (acc : List (PyStr × List (PyStr × List (PyStr × Dec)))) (k v : PyStr)
    (rest : List (PyStr × PyStr)) (h : endsWithShares k = false) :
    parseSharesAux reg acc ((k, v) :: rest) = parseSharesAux reg acc rest := by
  rw [parseSharesAux, if_neg (by simp [h])]

theorem parseSharesAux_device (reg : Registry) (dev : PyStr) :
    ∀ (sm : List (PyStr × List (PyStr × Dec)))
      (acc0 : List (PyStr × List (PyStr × List (PyStr × Dec))))
      (cur : List (PyStr × List (PyStr × Dec)))
      (restPairs : List (PyStr × PyStr)),
    (∀ p ∈ acc0, p.1 ≠ dev) →
    (∀ q ∈ sm, alistHas cur q.1 = false) →
    distinctKeys (sm.map Prod.fst) = true →
    (∀ q ∈ sm, headSeg q.1 = dev ∧ (∀ c ∈ q.1, slotCh c = true) ∧
      distinctKeys (q.2.map Prod.fst) = true ∧ (∀ e ∈ q.2, entryOkB reg q.1 e = true)) →
    parseSharesAux reg (acc0 ++ [(dev, cur)])
      (sm.map (fun q => (sharesKeyOf q.1, joinSep ',' (q.2.map (allocPiece reg q.1))))
        ++ restPairs)
    = parseSharesAux reg (acc0 ++ [(dev, cur ++ sm)]) restPairs := by
  intro sm
  induction sm with
  | nil =>
    intro acc0 cur restPairs _ _ _ _
    simp
  | cons q sm' ih =>
    intro acc0 cur restPairs hacc0 hfresh hnd hq
    obtain ⟨slot, da⟩ := q
    obtain ⟨hhead, hslot, hdand, hok⟩ := hq (slot, da) (List.mem_cons_self _ _)
    rw [List.map_cons, List.cons_append, parseSharesAux]
    rw [if_pos (endsWithShares_sharesKeyOf slot)]
    have hup : ∀ c ∈ slot, c.isUpper = false := fun c hc => (slotCh_spec (hslot c hc)).2.1
    rw [slotOfKey_sharesKeyOf hup]
    rw [parseEntries_write reg slot da hdand hok]
    show parseSharesAux reg (allocAssign (acc0 ++ [(dev, cur)]) (headSeg slot) slot da)
        (sm'.map (fun q => (sharesKeyOf q.1, joinSep ',' (q.2.map (allocPiece reg q.1))))
          ++ restPairs)
      = parseSharesAux reg (acc0 ++ [(dev, cur ++ (slot, da) :: sm')]) restPairs
    rw [hhead]
    rw [allocAssign_last acc0 cur dev slot da hacc0
      (hfresh (slot, da) (List.mem_cons_self _ _))]
    rw [List.map_cons] at hnd
    rw [ih acc0 (cur ++ [(slot, da)]) restPairs hacc0 ?_ (distinct_tail hnd)
      (fun q' hq' => hq q' (List.mem_cons_of_mem _ hq'))]
    · rw [List.append_assoc]
      rfl
    · intro q' hq'
      rw [alistHas_false_iff]
      rw [alistFind_append_none _
        ((alistHas_false_iff cur q'.1).mp (hfresh q' (List.mem_cons_of_mem _ hq')))]
      exact alistFind_singleton_ne da
        (not_contains_of_distinct_head hnd q'.1 (List.mem_map_of_mem Prod.fst hq'))

theorem parseSharesAux_sharesKV (reg : Registry) :
    ∀ (allocs acc : List (PyStr × List (PyStr × List (PyStr × Dec))))
      (restPairs : List (PyStr × PyStr)),
    distinctKeys (allocs.map Prod.fst) = true →
    (∀ a ∈ allocs, ∀ p ∈ acc, p.1 ≠ a.1) →
    (∀ a ∈ allocs, a.2 ≠ [] ∧ distinctKeys (a.2.map Prod.fst) = true ∧
      ∀ q ∈ a.2, headSeg q.1 = a.1 ∧ (∀ c ∈ q.1, slotCh c = true) ∧
        distinctKeys (q.2.map Prod.fst) = true ∧ (∀ e ∈ q.2, entryOkB reg q.1 e = true)) →
    parseSharesAux reg acc (sharesKV reg allocs ++ restPairs)
    = parseSharesAux reg (acc ++ allocs) restPairs := by
  intro allocs
  induction allocs with
  | nil =>
    intro acc restPairs _ _ _
    simp [sharesKV]
  | cons a rest ih =>
    intro acc restPairs hnd hdisj hwf
    obtain ⟨dev, sm⟩ := a
    obtain ⟨hsmne, hsmnd, hsm⟩ := hwf (dev, sm) (List.mem_cons_self _ _)
    obtain ⟨q0, sm', rfl⟩ := List.exists_cons_of_ne_nil hsmne
    obtain ⟨s0, d0⟩ := q0
    obtain ⟨hhead0, hslot0, hdand0, hok0⟩ := hsm (s0, d0) (List.mem_cons_self _ _)
    rw [sharesKV, List.map_cons, List.append_assoc, List.cons_append, parseSharesAux]
    rw [if_pos (endsWithShares_sharesKeyOf s0)]
    have hup0 : ∀ c ∈ s0, c.isUpper = false := fun c hc => (slotCh_spec (hslot0 c hc)).2.1
    rw [slotOfKey_sharesKeyOf hup0]
    rw [parseEntries_write reg s0 d0 hdand0 hok0]
    show parseSharesAux reg (allocAssign acc (headSeg s0) s0 d0)
        (sm'.map (fun q => (sharesKeyOf q.1, joinSep ',' (q.2.map (allocPiece reg q.1))))
          ++ (sharesKV reg rest ++ restPairs))
      = parseSharesAux reg (acc ++ (dev, (s0, d0) :: sm') :: rest) restPairs
    rw [hhead0]
    rw [allocAssign_new acc dev s0 d0
      (fun p hp => hdisj (dev, (s0, d0) :: sm') (List.mem_cons_self _ _) p hp)]
    rw [List.map_cons] at hsmnd
    rw [parseSharesAux_device reg dev sm' acc [(s0, d0)] (sharesKV reg rest ++ restPairs)
      (fun p hp => hdisj (dev, (s0, d0) :: sm') (List.mem_cons_self _ _) p hp)
      (fun q' hq' => by
        rw [alistHas_false_iff]
        exact alistFind_singleton_ne d0
          (not_contains_of_distinct_head hsmnd q'.1 (List.mem_map_of_mem Prod.fst hq')))
      (distinct_tail hsmnd)
      (fun q' hq' => hsm q' (List.mem_cons_of_mem _ hq'))]
    rw [List.singleton_append]
    rw [List.map_cons] at hnd
    rw [ih (acc ++ [(dev, (s0, d0) :: sm')]) restPairs (distinct_tail hnd)
      (fun a' ha' p hp => by
        rcases List.mem_append.mp hp with hp | hp
        · exact hdisj a' (List.mem_cons_of_mem _ ha') p hp
        · rcases List.mem_singleton.mp hp with rfl
          exact not_contains_of_distinct_head hnd a'.1
            (List.mem_map_of_mem Prod.fst ha'))
      (fun a' ha' => hwf a' (List.mem_cons_of_mem _ ha'))]
    rw [List.append_assoc]
    rfl

/-! Well-formedness unpacking and key distinctness of the serialized lines. -/

theorem wfRec_spec {reg : Registry} {r : KernelResourceSpec} (h : wfRec reg r = true) :
    (∀ c ∈ r.container_id, cidCh c = true) ∧
    distinctKeys (r.slots.map Prod.fst) = true ∧
    (∀ p ∈ r.slots, (∀ c ∈ p.1, jsonPlain c = true) ∧ (∀ c ∈ p.2, jsonPlain c = true)) ∧
    r.scratch_disk_size % ((2 : Int) ^ 20) = 0 ∧
    distinctKeys (r.allocations.map Prod.fst) = true ∧
    (∀ a ∈ r.allocations, a.2 ≠ [] ∧ distinctKeys (a.2.map Prod.fst) = true ∧
      ∀ q ∈ a.2, headSeg q.1 = a.1 ∧ (∀ c ∈ q.1, slotCh c = true) ∧
        distinctKeys (q.2.map Prod.fst) = true ∧ (∀ e ∈ q.2, entryOkB reg q.1 e = true)) ∧
    (∀ m ∈ r.mounts, mountOkB m = true) := by
  rw [wfRec] at h
  simp only [Bool.and_eq_true, List.all_eq_true, beq_iff_eq] at h
  obtain ⟨⟨⟨⟨⟨⟨hcid, hsnd⟩, hsl⟩, hscr⟩, hand⟩, hall⟩, hm⟩ := h
  refine ⟨hcid, hsnd, fun p hp => ⟨(hsl p hp).1, (hsl p hp).2⟩, hscr, hand, ?_, hm⟩
  intro a ha
  obtain ⟨⟨hne, hdk⟩, hent⟩ := hall a ha
  refine ⟨?_, hdk, ?_⟩
  · intro he
    rw [he] at hne
    exact absurd hne (by decide)
  · intro q hq
    have hqs := hent q hq
    rw [slotEntryOkB] at hqs
    simp only [Bool.and_eq_true, List.all_eq_true, beq_iff_eq] at hqs
    obtain ⟨⟨⟨hdev, hslot⟩, hdk2⟩, hok⟩ := hqs
    exact ⟨hdev.symm, hslot, hdk2, hok⟩

theorem distinctKeys_iff (l : List PyStr) : distinctKeys l = true ↔ l.Nodup := by
  induction l with
  | nil => simp [distinctKeys]
  | cons k r ih =>
    rw [distinctKeys, Bool.and_eq_true, List.nodup_cons, ih]
    constructor
    · rintro ⟨h1, h2⟩
      refine ⟨fun hm => ?_, h2⟩
      have hc : r.contains k = true := List.elem_iff.mpr hm
      rw [hc] at h1
      exact Bool.noConfusion h1
    · rintro ⟨h1, h2⟩
      refine ⟨?_, h2⟩
      have hc : r.contains k = false := by
        rw [← Bool.not_eq_true]
        intro hcc
        exact h1 (List.elem_iff.mp hcc)
      rw [hc]
      rfl

theorem mem_sharesKV (reg : Registry) :
    ∀ (allocs : List (PyStr × List (PyStr × List (PyStr × Dec)))) {p : PyStr × PyStr},
    p ∈ sharesKV reg allocs →
    ∃ a ∈ allocs, ∃ q ∈ a.2,
      p = (sharesKeyOf q.1, joinSep ',' (q.2.map (allocPiece reg q.1))) := by
  intro allocs
  induction allocs with
  | nil => intro p hp; exact absurd hp (List.not_mem_nil p)
  | cons a rest ih =>
    intro p hp
    obtain ⟨dev, sm⟩ := a
    rw [sharesKV] at hp
    rcases List.mem_append.mp hp with hp | hp
    · obtain ⟨q, hq, rfl⟩ := List.mem_map.mp hp
      exact ⟨(dev, sm), List.mem_cons_self _ _, q, hq, rfl⟩
    · obtain ⟨a', ha', q, hq, rfl⟩ := ih hp
      exact ⟨a', List.mem_cons_of_mem _ ha', q, hq, rfl⟩

theorem sharesKV_keys_nodup (reg : Registry) :
    ∀ (allocs : List (PyStr × List (PyStr × List (PyStr × Dec)))),
    (allocs.map Prod.fst).Nodup →
    (∀ a ∈ allocs, distinctKeys (a.2.map Prod.fst) = true ∧
      ∀ q ∈ a.2, headSeg q.1 = a.1 ∧ (∀ c ∈ q.1, slotCh c = true)) →
    ((sharesKV reg allocs).map Prod.fst).Nodup := by
  intro allocs
  induction allocs with
  | nil => intro _ _; simp [sharesKV]
  | cons a rest ih =>
    intro hnd hwf
    obtain ⟨dev, sm⟩ := a
    have hkeys : (sharesKV reg ((dev, sm) :: rest)).map Prod.fst
        = (sm.map Prod.fst).map sharesKeyOf ++ (sharesKV reg rest).map Prod.fst := by
      rw [sharesKV, List.map_append, List.map_map, List.map_map]
      rfl
    rw [hkeys, List.nodup_append]
    rw [List.map_cons, List.nodup_cons] at hnd
    obtain ⟨hdk, hq⟩ := hwf (dev, sm) (List.mem_cons_self _ _)
    have hupper : ∀ s ∈ sm.map Prod.fst, ∀ c ∈ s, c.isUpper = false := by
      intro s hs c hc
      obtain ⟨q, hqm, rfl⟩ := List.mem_map.mp hs
      exact (slotCh_spec ((hq q hqm).2 c hc)).2.1
    refine ⟨?_, ih hnd.2 (fun a' ha' => hwf a' (List.mem_cons_of_mem _ ha')), ?_⟩
    · refine List.Nodup.map_on ?_ ((distinctKeys_iff _).mp hdk)
      intro x hx y hy hxy
      exact sharesKeyOf_inj (hupper x hx) (hupper y hy) hxy
    · intro k hk1 hk2
      obtain ⟨s1, hs1, rfl⟩ := List.mem_map.mp hk1
      obtain ⟨p, hp, hpk⟩ := List.mem_map.mp hk2
      obtain ⟨a', ha', q', hq', rfl⟩ := mem_sharesKV reg rest hp
      have hup2 : ∀ c ∈ q'.1, c.isUpper = false := by
        intro c hc
        exact (slotCh_spec (((hwf a' (List.mem_cons_of_mem _ ha')).2 q' hq').2 c hc)).2.1
      have hseq : s1 = q'.1 := sharesKeyOf_inj (hupper s1 hs1) hup2 hpk.symm
      obtain ⟨qq, hqq, rfl⟩ := List.mem_map.mp hs1
      have hh1 : headSeg qq.1 = dev := (hq qq hqq).1
      have hh2 : headSeg q'.1 = a'.1 :=
        ((hwf a' (List.mem_cons_of_mem _ ha')).2 q' hq').1
      rw [hseq] at hh1
      rw [hh1] at hh2
      refine hnd.1 ?_
      rw [hh2]
      have hmm := List.mem_map_of_mem Prod.fst ha'
      exact hmm

theorem recKVs_keys_distinct (reg : Registry) (r : KernelResourceSpec)
    (hwf : wfRec reg r = true) :
    distinctKeys ((recKVs reg r).map Prod.fst) = true := by
  obtain ⟨_, _, _, _, hand, hall, _⟩ := wfRec_spec hwf
  rw [distinctKeys_iff]
  have hre : (recKVs reg r).map Prod.fst
      = [cidKey, scratchKey, mountsKey, slotsKey] ++
        (sharesKV reg r.allocations).map Prod.fst := by
    rw [recKVs, List.map_append]
    rfl
  rw [hre, List.nodup_append]
  refine ⟨by decide, ?_, ?_⟩
  · refine sharesKV_keys_nodup reg r.allocations ((distinctKeys_iff _).mp hand) ?_
    intro a ha
    obtain ⟨_, hdk, hq⟩ := hall a ha
    exact ⟨hdk, fun q hq2 => ⟨(hq q hq2).1, (hq q hq2).2.1⟩⟩
  · intro k hk hk2
    have hsh : endsWithShares k = true := by
      obtain ⟨p, hp, rfl⟩ := List.mem_map.mp hk2
      obtain ⟨a, ha, q, hq, rfl⟩ := mem_sharesKV reg r.allocations hp
      exact endsWithShares_sharesKeyOf _
    fin_cases hk
    · exact absurd hsh (by decide)
    · exact absurd hsh (by decide)
    · exact absurd hsh (by decide)
    · exact absurd hsh (by decide)

theorem last_printable {v : PyStr} (hv : ∀ c ∈ v, 33 ≤ c.toNat ∧ c.toNat ≤ 126) :
    ∀ c, v.getLast? = some c → pySpace c = false :=
  fun c hc => pySpace_false_of_ge (hv c (mem_of_getLastQ hc)).1

theorem line_noop {k v : PyStr} (hk : k ≠ [])
    (hkp : ∀ c ∈ k, 33 ≤ c.toNat ∧ c.toNat ≤ 126)
    (hv : ∀ c, v.getLast? = some c → pySpace c = false) :
    pyStrip (k ++ '=' :: v) = k ++ '=' :: v := by
  obtain ⟨c0, k', rfl⟩ := List.exists_cons_of_ne_nil hk
  exact pyStrip_kv_line c0 k' rfl
    (pySpace_false_of_ge (hkp c0 (List.mem_cons_self _ _)).1) hv

theorem mountsLineVal_printable {mounts : List Mount}
    (h : ∀ m ∈ mounts, mountOkB m = true) :
    ∀ c ∈ mountsLineVal mounts, 33 ≤ c.toNat ∧ c.toNat ≤ 126 := by
  intro c hc
  rw [mountsLineVal] at hc
  rcases mem_joinSep hc with rfl | ⟨p, hp, hcp⟩
  · exact ⟨by decide, by decide⟩
  · obtain ⟨m, hm2, rfl⟩ := List.mem_map.mp hp
    exact (mount_render_chars (h m hm2) c hcp).1

theorem jsonDumps_getLast (es : List (PyStr × PyStr)) :
    (jsonDumps es).getLast? = some rbrace := by
  rw [jsonDumps]
  exact List.getLast?_concat _

theorem recKVs_facts (reg : Registry) (r : KernelResourceSpec) (hwf : wfRec reg r = true) :
    ∀ p ∈ recKVs reg r, p.1 ≠ [] ∧
      (∀ c ∈ p.1, (33 ≤ c.toNat ∧ c.toNat ≤ 126) ∧ c ≠ '=') ∧
      (∀ c ∈ p.2, 32 ≤ c.toNat ∧ c.toNat ≤ 126) ∧
      (∀ c, p.2.getLast? = some c → pySpace c = false) := by
  obtain ⟨hcid, hsnd, hsl, hscr, hand, hall, hm⟩ := wfRec_spec hwf
  intro p hp
  have hp5 : p = (cidKey, r.container_id) ∨ p = (scratchKey, formatM r.scratch_disk_size) ∨
      p = (mountsKey, mountsLineVal r.mounts) ∨ p = (slotsKey, jsonDumps r.slots) ∨
      p ∈ sharesKV reg r.allocations := by
    rw [recKVs] at hp
    rcases List.mem_append.mp hp with hp | hp
    · fin_cases hp
      · exact Or.inl rfl
      · exact Or.inr (Or.inl rfl)
      · exact Or.inr (Or.inr (Or.inl rfl))
      · exact Or.inr (Or.inr (Or.inr (Or.inl rfl)))
    · exact Or.inr (Or.inr (Or.inr (Or.inr hp)))
  have hkey4 : ∀ k ∈ [cidKey, scratchKey, mountsKey, slotsKey],
      k ≠ [] ∧ ∀ c ∈ k, (33 ≤ c.toNat ∧ c.toNat ≤ 126) ∧ c ≠ '=' := by decide
  rcases hp5 with rfl | rfl | rfl | rfl | hp5
  · refine ⟨(hkey4 cidKey (by simp)).1, (hkey4 cidKey (by simp)).2, ?_, ?_⟩
    · intro c hc
      have hcc := cidCh_spec (hcid c hc)
      exact ⟨by omega, hcc.2⟩
    · intro c hc
      exact pySpace_false_of_ge (cidCh_spec (hcid c (mem_of_getLastQ hc))).1
  · refine ⟨(hkey4 scratchKey (by simp)).1, (hkey4 scratchKey (by simp)).2, ?_, ?_⟩
    · intro c hc
      have hcc := formatM_printable _ c hc
      exact ⟨by omega, hcc.2⟩
    · exact last_printable (formatM_printable _)
  · refine ⟨(hkey4 mountsKey (by simp)).1, (hkey4 mountsKey (by simp)).2, ?_, ?_⟩
    · intro c hc
      have hcc := mountsLineVal_printable hm c hc
      exact ⟨by omega, hcc.2⟩
    · exact last_printable (mountsLineVal_printable hm)
  · refine ⟨(hkey4 slotsKey (by simp)).1, (hkey4 slotsKey (by simp)).2, jsonDumps_chars hsl, ?_⟩
    · intro c hc
      rw [jsonDumps_getLast] at hc
      rw [← Option.some_inj.mp hc]
      decide
  · obtain ⟨a, ha, q, hq, rfl⟩ := mem_sharesKV reg r.allocations hp5
    obtain ⟨_, _, hqq⟩ := hall a ha
    obtain ⟨_, hslot, _, hok⟩ := hqq q hq
    have hdev : ∀ e ∈ q.2, ∀ c ∈ e.1, devCh c = true := by
      intro e he c hc
      have hoke := hok e he
      rw [entryOkB, Bool.and_eq_true, Bool.and_eq_true] at hoke
      exact List.all_eq_true.mp hoke.1.2 c hc
    refine ⟨?_, ?_, ?_, ?_⟩
    · rw [sharesKeyOf]
      intro he
      have hl2 := congrArg List.length he
      rw [List.length_append] at hl2
      have h7 : (sharesSfx : PyStr).length = 7 := rfl
      rw [h7, List.length_nil] at hl2
      omega
    · exact fun c hc => ⟨sharesKeyOf_printable hslot c hc, sharesKeyOf_no_eq hslot c hc⟩
    · intro c hc
      have hcc := sharesVal_printable hdev c hc
      exact ⟨by omega, hcc.2⟩
    · exact last_printable (sharesVal_printable hdev)

theorem kvpairsOf_recKVs (reg : Registry) (r : KernelResourceSpec)
    (hwf : wfRec reg r = true) :
    kvpairsOf (concatAll (((recKVs reg r).map (fun p => p.1 ++ '=' :: p.2)).map
      (fun l => l ++ ['\n']))) = recKVs reg r := by
  apply kvpairsOf_write
  · intro p hp c hc
    obtain ⟨hk, hkc, hvc, _⟩ := recKVs_facts reg r hwf p hp
    rcases List.mem_append.mp hc with hc | hc
    · exact ne_of_toNat_lt (hkc c hc).1.1 (by decide)
    · rcases List.mem_cons.mp hc with rfl | hc
      · decide
      · have h32 := (hvc c hc).1
        intro he
        subst he
        exact absurd h32 (by decide)
  · intro p hp
    obtain ⟨hk, hkc, hvc, hvl⟩ := recKVs_facts reg r hwf p hp
    exact ⟨fun c hc => (hkc c hc).2, line_noop hk (fun c hc => (hkc c hc).1) hvl⟩
  · exact recKVs_keys_distinct reg r hwf

theorem parseSharesAux_recKVs (reg : Registry) (r : KernelResourceSpec)
    (hwf : wfRec reg r = true) :
    parseSharesAux reg [] (recKVs reg r) = .ok r.allocations := by
  obtain ⟨_, _, _, _, hand, hall, _⟩ := wfRec_spec hwf
  have h4 : recKVs reg r = (cidKey, r.container_id) ::
      (scratchKey, formatM r.scratch_disk_size) ::
      (mountsKey, mountsLineVal r.mounts) ::
      (slotsKey, jsonDumps r.slots) :: sharesKV reg r.allocations := rfl
  rw [h4, parseSharesAux_skip _ _ _ _ _ (by decide),
    parseSharesAux_skip _ _ _ _ _ (by decide),
    parseSharesAux_skip _ _ _ _ _ (by decide),
    parseSharesAux_skip _ _ _ _ _ (by decide)]
  have h0 : sharesKV reg r.allocations = sharesKV reg r.allocations ++ [] :=
    (List.append_nil _).symm
  rw [h0, parseSharesAux_sharesKV reg r.allocations [] [] hand
    (fun a _ p hp => absurd hp (List.not_mem_nil p)) hall]
  rfl

theorem read_from_string_write (reg : Registry) (r : KernelResourceSpec)
    (hwf : wfRec reg r = true) :
    KernelResourceSpec.read_from_string reg
      (concatAll (((recKVs reg r).map (fun p => p.1 ++ '=' :: p.2)).map
        (fun l => l ++ ['\n']))) = .ok r := by
  obtain ⟨hcid, hsnd, hsl, hscr, hand, hall, hm⟩ := wfRec_spec hwf
  have hkv := kvpairsOf_recKVs reg r hwf
  have hshares := parseSharesAux_recKVs reg r hwf
  have hmnt : getKey (recKVs reg r) mountsKey = .ok (mountsLineVal r.mounts) := rfl
  have hmounts : parseMounts ((splitOnChar ',' (mountsLineVal r.mounts)).filter
      (fun m => !m.isEmpty)) = .ok r.mounts := parseMounts_render hm
  have hscrk : getKey (recKVs reg r) scratchKey = .ok (formatM r.scratch_disk_size) := rfl
  have hbin : parseBinarySize (formatM r.scratch_disk_size) = some r.scratch_disk_size :=
    parseBinarySize_formatM hscr
  have hslk : getKey (recKVs reg r) slotsKey = .ok (jsonDumps r.slots) := rfl
  have hjson : jsonLoadsObj (jsonDumps r.slots) = some r.slots :=
    jsonLoadsObj_dumps r.slots hsl
  have hcidf : alistFind (recKVs reg r) cidKey = some r.container_id := rfl
  rw [KernelResourceSpec.read_from_string]
  simp only [hkv, hshares, hmnt, hmounts, hscrk, hbin, hslk, hjson, hcidf,
    Option.getD_some, dictOfList_distinct hsnd]

/-! Error propagation of the write side. -/

theorem writeSlotLines_error_val (reg : Registry) (dev : PyStr) :
    ∀ (sm : List (PyStr × List (PyStr × Dec))) (e : PyErr),
    writeSlotLines reg dev sm = .error e → e = PyErr.valueError := by
  intro sm
  induction sm with
  | nil => intro e he; exact Except.noConfusion he
  | cons q rest ih =>
    intro e he
    obtain ⟨slot, da⟩ := q
    rw [writeSlotLines] at he
    by_cases hd : devSlotOk dev slot = true
    · rw [if_pos hd] at he
      cases hr : writeSlotLines reg dev rest with
      | ok ls =>
        rw [hr] at he
        exact Except.noConfusion he
      | error e2 =>
        rw [hr] at he
        have hee : e2 = e := by
          have h3 : (Except.error e2 : Except PyErr (List PyStr)) = Except.error e := he
          cases h3
          rfl
        rw [← hee]
        exact ih e2 hr
    · rw [if_neg hd] at he
      cases he
      rfl

theorem writeSlotLines_err (reg : Registry) (dev : PyStr)
    (sm : List (PyStr × List (PyStr × Dec)))
    (h : ∃ q ∈ sm, devSlotOk dev q.1 = false) :
    writeSlotLines reg dev sm = .error PyErr.valueError := by
  induction sm with
  | nil =>
    obtain ⟨q, hq, _⟩ := h
    exact absurd hq (List.not_mem_nil q)
  | cons p rest ih =>
    obtain ⟨slot, da⟩ := p
    rw [writeSlotLines]
    by_cases hd : devSlotOk dev slot = true
    · rw [if_pos hd]
      have hrest : ∃ q ∈ rest, devSlotOk dev q.1 = false := by
        obtain ⟨q, hq, hbad⟩ := h
        rcases List.mem_cons.mp hq with rfl | hq
        · rw [hd] at hbad
          exact Bool.noConfusion hbad
        · exact ⟨q, hq, hbad⟩
      rw [ih hrest]
    · rw [if_neg hd]

theorem writeAllocLines_err (reg : Registry)
    (allocs : List (PyStr × List (PyStr × List (PyStr × Dec))))
    (h : ∃ a ∈ allocs, ∃ q ∈ a.2, devSlotOk a.1 q.1 = false) :
    writeAllocLines reg allocs = .error PyErr.valueError := by
  induction allocs with
  | nil =>
    obtain ⟨a, ha, _⟩ := h
    exact absurd ha (List.not_mem_nil a)
  | cons a rest ih =>
    obtain ⟨dev, sm⟩ := a
    rw [writeAllocLines]
    cases hw : writeSlotLines reg dev sm with
    | error e =>
      have he : e = PyErr.valueError := writeSlotLines_error_val reg dev sm e hw
      rw [he]
    | ok ls =>
      have hrest : ∃ a ∈ rest, ∃ q ∈ a.2, devSlotOk a.1 q.1 = false := by
        obtain ⟨a, ha, q, hq, hbad⟩ := h
        rcases List.mem_cons.mp ha with hae | ha
        · subst hae
          rw [writeSlotLines_err reg dev sm ⟨q, hq, hbad⟩] at hw
          exact Except.noConfusion hw
        · exact ⟨a, ha, q, hq, hbad⟩
      rw [ih hrest]

/-! Shape of a successful parse. -/

theorem read_ok_shape (reg : Registry) (text : PyStr) (rec : KernelResourceSpec)
    (hok : KernelResourceSpec.read_from_string reg text = .ok rec) :
    parseSharesAux reg [] (kvpairsOf text) = .ok rec.allocations ∧
    rec.container_id = (alistFind (kvpairsOf text) cidKey).getD (("unknown").toList) := by
  rw [KernelResourceSpec.read_from_string] at hok
  cases hs : parseSharesAux reg [] (kvpairsOf text) with
  | error e =>
    simp only [hs] at hok
    exact Except.noConfusion hok
  | ok allocs =>
    simp only [hs] at hok
    cases hm : getKey (kvpairsOf text) mountsKey with
    | error e =>
      simp only [hm] at hok
      exact Except.noConfusion hok
    | ok mv =>
      simp only [hm] at hok
      cases hpm : parseMounts ((splitOnChar ',' mv).filter (fun m => !m.isEmpty)) with
      | error e =>
        simp only [hpm] at hok
        exact Except.noConfusion hok
      | ok mounts =>
        simp only [hpm] at hok
        cases hsc : getKey (kvpairsOf text) scratchKey with
        | error e =>
          simp only [hsc] at hok
          exact Except.noConfusion hok
        | ok sv =>
          simp only [hsc] at hok
          cases hbs : parseBinarySize sv with
          | none =>
            simp only [hbs] at hok
            exact Except.noConfusion hok
          | some sc =>
            simp only [hbs] at hok
            cases hsl : getKey (kvpairsOf text) slotsKey with
            | error e =>
              simp only [hsl] at hok
              exact Except.noConfusion hok
            | ok jv =>
              simp only [hsl] at hok
              cases hjs : jsonLoadsObj jv with
              | none =>
                simp only [hjs] at hok
                exact Except.noConfusion hok
              | some es =>
                simp only [hjs] at hok
                injection hok with h2
                subst h2
                exact ⟨rfl, rfl⟩

/-! The parse-side allocation invariant: lower-case slot names grouped
under their leading dot-segment. -/

theorem lowChar_not_upper (c : Char) : (lowChar c).isUpper = false := by
  rw [lowChar]
  by_cases hu : c.isUpper = true
  · rw [if_pos hu]
    obtain ⟨h1, h2⟩ := (isUpper_iff c).mp hu
    rw [← Bool.not_eq_true, isUpper_iff]
    rw [charToNat_ofNat (by omega)]
    omega
  · rw [if_neg hu]
    exact Bool.not_eq_true _ |>.mp hu

theorem pyLower_not_upper (s : PyStr) : ∀ c ∈ pyLower s, c.isUpper = false := by
  intro c hc
  rw [pyLower] at hc
  obtain ⟨d, _, rfl⟩ := List.mem_map.mp hc
  exact lowChar_not_upper d

theorem mem_dictSet {α : Type} {m : List (PyStr × α)} {k : PyStr} {v : α}
    {q : PyStr × α} (hq : q ∈ dictSet m k v) : q = (k, v) ∨ q ∈ m := by
  rw [dictSet] at hq
  by_cases hh : alistHas m k = true
  · rw [if_pos hh] at hq
    obtain ⟨p, hp, hpq⟩ := List.mem_map.mp hq
    by_cases he : p.1 = k
    · rw [if_pos he] at hpq
      exact Or.inl hpq.symm
    · rw [if_neg he] at hpq
      exact Or.inr (hpq ▸ hp)
  · rw [if_neg hh] at hq
    rcases List.mem_append.mp hq with hq | hq
    · exact Or.inr hq
    · exact Or.inl (List.mem_singleton.mp hq)

theorem allocAssign_inv {acc : List (PyStr × List (PyStr × List (PyStr × Dec)))}
    {dev slot : PyStr} {pda : List (PyStr × Dec)}
    (hacc : ∀ a ∈ acc, ∀ q ∈ a.2, (∀ c ∈ q.1, c.isUpper = false) ∧ a.1 = headSeg q.1)
    (hslot : ∀ c ∈ slot, c.isUpper = false) (hdev : dev = headSeg slot) :
    ∀ a ∈ allocAssign acc dev slot pda, ∀ q ∈ a.2,
      (∀ c ∈ q.1, c.isUpper = false) ∧ a.1 = headSeg q.1 := by
  intro a ha q hq
  rw [allocAssign] at ha
  by_cases hh : alistHas acc dev = true
  · rw [if_pos hh] at ha
    obtain ⟨p, hp, hpa⟩ := List.mem_map.mp ha
    by_cases he : p.1 = dev
    · rw [if_pos he] at hpa
      subst hpa
      rcases mem_dictSet hq with rfl | hq2
      · exact ⟨hslot, hdev⟩
      · have h2 := hacc p hp q hq2
        rw [he] at h2
        exact h2
    · rw [if_neg he] at hpa
      subst hpa
      exact hacc p hp q hq
  · rw [if_neg hh] at ha
    rcases List.mem_append.mp ha with ha | ha
    · exact hacc a ha q hq
    · rcases List.mem_singleton.mp ha with rfl
      rcases List.mem_singleton.mp hq with rfl
      exact ⟨hslot, hdev⟩

theorem parseSharesAux_inv (reg : Registry) :
    ∀ (kvs : List (PyStr × PyStr))
      (acc allocs : List (PyStr × List (PyStr × List (PyStr × Dec)))),
    (∀ a ∈ acc, ∀ q ∈ a.2, (∀ c ∈ q.1, c.isUpper = false) ∧ a.1 = headSeg q.1) →
    parseSharesAux reg acc kvs = .ok allocs →
    ∀ a ∈ allocs, ∀ q ∈ a.2, (∀ c ∈ q.1, c.isUpper = false) ∧ a.1 = headSeg q.1 := by
  intro kvs
  induction kvs with
  | nil =>
    intro acc allocs hacc hok
    have h2 : acc = allocs := by
      have h3 : (Except.ok acc : Except PyErr _) = Except.ok allocs := hok
      cases h3
      rfl
    exact h2 ▸ hacc
  | cons kv rest ih =>
    intro acc allocs hacc hok
    obtain ⟨k, v⟩ := kv
    rw [parseSharesAux] at hok
    by_cases hsh : endsWithShares k = true
    · rw [if_pos hsh] at hok
      cases hpe : parseEntries reg (slotOfKey k) [] (splitOnChar ',' v) with
      | error e =>
        rw [hpe] at hok
        exact Except.noConfusion hok
      | ok pda =>
        rw [hpe] at hok
        refine ih _ allocs ?_ hok
        exact allocAssign_inv hacc (by rw [slotOfKey]; exact pyLower_not_upper _) rfl
    · rw [if_neg hsh] at hok
      exact ih _ allocs hacc hok

/-! Mount.from_str case characterization. -/

theorem from_str_not_three (s : PyStr) (h : (splitOnChar ':' s).length ≠ 3) :
    Mount.from_str s = .error .valueError := by
  rw [Mount.from_str]
  cases h0 : splitOnChar ':' s with
  | nil => rfl
  | cons a l1 =>
    cases l1 with
    | nil => rfl
    | cons b l2 =>
      cases l2 with
      | nil => rfl
      | cons c l3 =>
        cases l3 with
        | nil => exact absurd (by rw [h0]; rfl : (splitOnChar ':' s).length = 3) h
        | cons d l4 => rfl

theorem from_str_perm_none {s src tgt pm : PyStr}
    (hs : splitOnChar ':' s = [src, tgt, pm]) (hp : permOfStr pm = none) :
    Mount.from_str s = .error .valueError := by
  rw [from_str_eval hs]
  by_cases h1 : (pathOfStr src).isAbs = true
  · rw [if_pos h1]
    show (if (pathOfStr tgt).isAbs then
        match permOfStr pm with
        | some pe => Except.ok
            (Mount.mk MountTy.bind (some (MountSrc.path (pathOfStr src))) (pathOfStr tgt) pe none)
        | none => Except.error PyErr.valueError
      else Except.error PyErr.valueError) = Except.error PyErr.valueError
    by_cases h2 : (pathOfStr tgt).isAbs = true
    · rw [if_pos h2, hp]
    · rw [if_neg h2]
  · rw [if_neg h1]
    by_cases h3 : (pathOfStr src).comps.length = 1
    · rw [if_pos h3]
      show (if (pathOfStr tgt).isAbs then
          match permOfStr pm with
          | some pe => Except.ok
              (Mount.mk MountTy.volume (some (MountSrc.name (strOfPath (pathOfStr src))))
                (pathOfStr tgt) pe none)
          | none => Except.error PyErr.valueError
        else Except.error PyErr.valueError) = Except.error PyErr.valueError
      by_cases h2 : (pathOfStr tgt).isAbs = true
      · rw [if_pos h2, hp]
      · rw [if_neg h2]
    · rw [if_neg h3]

theorem from_str_bad_target {s src tgt pm : PyStr}
    (hs : splitOnChar ':' s = [src, tgt, pm]) (ht : (pathOfStr tgt).isAbs = false) :
    Mount.from_str s = .error .valueError := by
  have htn : ¬ (pathOfStr tgt).isAbs = true := by
    rw [ht]
    exact Bool.false_ne_true
  rw [from_str_eval hs]
  by_cases h1 : (pathOfStr src).isAbs = true
  · rw [if_pos h1]
    show (if (pathOfStr tgt).isAbs then
        match permOfStr pm with
        | some pe => Except.ok
            (Mount.mk MountTy.bind (some (MountSrc.path (pathOfStr src))) (pathOfStr tgt) pe none)
        | none => Except.error PyErr.valueError
      else Except.error PyErr.valueError) = Except.error PyErr.valueError
    rw [if_neg htn]
  · rw [if_neg h1]
    by_cases h3 : (pathOfStr src).comps.length = 1
    · rw [if_pos h3]
      show (if (pathOfStr tgt).isAbs then
          match permOfStr pm with
          | some pe => Except.ok
              (Mount.mk MountTy.volume (some (MountSrc.name (strOfPath (pathOfStr src))))
                (pathOfStr tgt) pe none)
          | none => Except.error PyErr.valueError
        else Except.error PyErr.valueError) = Except.error PyErr.valueError
      rw [if_neg htn]
    · rw [if_neg h3]

theorem from_str_bind {s src tgt pm : PyStr} {pe : MountPerm}
    (hs : splitOnChar ':' s = [src, tgt, pm]) (h1 : (pathOfStr src).isAbs = true)
    (h2 : (pathOfStr tgt).isAbs = true) (hp : permOfStr pm = some pe) :
    Mount.from_str s =
      .ok ⟨MountTy.bind, some (MountSrc.path (pathOfStr src)), pathOfStr tgt, pe, none⟩ := by
  rw [from_str_eval hs, if_pos h1]
  show (if (pathOfStr tgt).isAbs then
      match permOfStr pm with
      | some pe => Except.ok
          (Mount.mk MountTy.bind (some (MountSrc.path (pathOfStr src))) (pathOfStr tgt) pe none)
      | none => Except.error PyErr.valueError
    else Except.error PyErr.valueError) = _
  rw [if_pos h2, hp]

theorem from_str_volume {s src tgt pm : PyStr} {pe : MountPerm}
    (hs : splitOnChar ':' s = [src, tgt, pm]) (h1 : (pathOfStr src).isAbs = false)
    (hl : (pathOfStr src).comps.length = 1)
    (h2 : (pathOfStr tgt).isAbs = true) (hp : permOfStr pm = some pe) :
    Mount.from_str s =
      .ok ⟨MountTy.volume, some (MountSrc.name (strOfPath (pathOfStr src))),
        pathOfStr tgt, pe, none⟩ := by
  have h1n : ¬ (pathOfStr src).isAbs = true := by
    rw [h1]
    exact Bool.false_ne_true
  rw [from_str_eval hs, if_neg h1n, if_pos hl]
  show (if (pathOfStr tgt).isAbs then
      match permOfStr pm with
      | some pe => Except.ok
          (Mount.mk MountTy.volume (some (MountSrc.name (strOfPath (pathOfStr src))))
            (pathOfStr tgt) pe none)
      | none => Except.error PyErr.valueError
    else Except.error PyErr.valueError) = _
  rw [if_pos h2, hp]

theorem from_str_multi {s src tgt pm : PyStr}
    (hs : splitOnChar ':' s = [src, tgt, pm]) (h1 : (pathOfStr src).isAbs = false)
    (hl : (pathOfStr src).comps.length ≠ 1) :
    Mount.from_str s = .error .valueError := by
  have h1n : ¬ (pathOfStr src).isAbs = true := by
    rw [h1]
    exact Bool.false_ne_true
  rw [from_str_eval hs, if_neg h1n, if_neg hl]

/-! bitmask2set semantics. -/

theorem bitmask2setAux_mem :
    ∀ (fuel mask bpos : Nat), mask < 2 ^ fuel →
    ∀ i : Nat, i ∈ bitmask2setAux fuel mask bpos ↔
      ∃ j, i = bpos + j ∧ Nat.testBit mask j = true := by
  intro fuel
  induction fuel with
  | zero =>
    intro mask bpos h i
    have hm : mask = 0 := by
      have h1 : (2 : Nat) ^ 0 = 1 := pow_zero 2
      omega
    subst hm
    simp [bitmask2setAux, Nat.zero_testBit]
  | succ f ih =>
    intro mask bpos h i
    rw [bitmask2setAux]
    by_cases hm : mask = 0
    · rw [if_pos hm]
      subst hm
      simp [Nat.zero_testBit]
    · rw [if_neg hm]
      rw [List.mem_append]
      have hp : (2 : Nat) ^ (f + 1) = 2 * 2 ^ f := by
        rw [pow_succ]
        ring
      have h2 : mask / 2 < 2 ^ f := by omega
      rw [ih (mask / 2) (bpos + 1) h2 i]
      constructor
      · rintro (hl | ⟨j, rfl, hj⟩)
        · by_cases hq : mask % 2 = 1
          · rw [if_pos hq] at hl
            rcases List.mem_singleton.mp hl with rfl
            refine ⟨0, by omega, ?_⟩
            rw [Nat.testBit_zero]
            exact decide_eq_true hq
          · rw [if_neg hq] at hl
            exact absurd hl (List.not_mem_nil i)
        · refine ⟨j + 1, by omega, ?_⟩
          rw [Nat.testBit_add_one]
          exact hj
      · rintro ⟨j, rfl, hj⟩
        cases j with
        | zero =>
          left
          have hq : mask % 2 = 1 := by
            rw [Nat.testBit_zero] at hj
            exact of_decide_eq_true hj
          rw [if_pos hq]
          simp
        | succ j2 =>
          right
          refine ⟨j2, by omega, ?_⟩
          rw [Nat.testBit_add_one] at hj
          exact hj

/-! Stable plugin ordering. -/

theorem accel_key_intr {α : Type} {x : PyStr × α} (h : isIntrinsic x = true) :
    accel_lt_intrinsic x = 0 := by
  rw [isIntrinsic, Bool.or_eq_true] at h
  rw [accel_lt_intrinsic, if_pos]
  rcases h with h | h
  · exact Or.inl (by simpa using h)
  · exact Or.inr (by simpa using h)

theorem accel_key_acc {α : Type} {x : PyStr × α} (h : isIntrinsic x = false) :
    accel_lt_intrinsic x = -1 := by
  rw [accel_lt_intrinsic, if_neg]
  rw [isIntrinsic] at h
  rintro (hc | hc)
  · rw [hc] at h
    simp at h
  · rw [hc] at h
    simp at h

theorem accel_key_ge {α : Type} (y : PyStr × α) : -1 ≤ accel_lt_intrinsic y := by
  rw [accel_lt_intrinsic]
  by_cases h : y.1 = ("cpu").toList ∨ y.1 = ("mem").toList
  · rw [if_pos h]
    omega
  · rw [if_neg h]

theorem stableInsert_min {β : Type} (key : β → Int) (x : β) (l : List β)
    (h : ∀ y ∈ l, key x ≤ key y) : stableInsert key x l = x :: l := by
  cases l with
  | nil => rfl
  | cons y ys =>
    rw [stableInsert, if_pos (h y (List.mem_cons_self _ _))]

theorem stableInsert_intr {α : Type} (x : PyStr × α) (hx : isIntrinsic x = true) :
    ∀ (A B : List (PyStr × α)),
    (∀ y ∈ A, isIntrinsic y = false) → (∀ y ∈ B, isIntrinsic y = true) →
    stableInsert accel_lt_intrinsic x (A ++ B) = A ++ x :: B := by
  intro A
  induction A with
  | nil =>
    intro B _ hB
    rw [List.nil_append, List.nil_append]
    refine stableInsert_min _ x B ?_
    intro y hy
    rw [accel_key_intr hx, accel_key_intr (hB y hy)]
  | cons a as ih =>
    intro B hA hB
    rw [List.cons_append, stableInsert, if_neg, List.cons_append,
      ih B (fun y hy => hA y (List.mem_cons_of_mem _ hy)) hB]
    rw [accel_key_intr hx, accel_key_acc (hA a (List.mem_cons_self _ _))]
    omega

theorem stable_sort_filter {α : Type} (l : List (PyStr × α)) :
    stableSortByKey accel_lt_intrinsic l =
      l.filter (fun x => !(isIntrinsic x)) ++ l.filter (fun x => isIntrinsic x) := by
  induction l with
  | nil => rfl
  | cons x l ih =>
    have hstep : stableSortByKey accel_lt_intrinsic (x :: l)
        = stableInsert accel_lt_intrinsic x (stableSortByKey accel_lt_intrinsic l) := rfl
    rw [hstep, ih]
    by_cases hx : isIntrinsic x = true
    · have h1 : (x :: l).filter (fun y => !(isIntrinsic y))
          = l.filter (fun y => !(isIntrinsic y)) := by
        rw [List.filter_cons]
        simp [hx]
      have h2 : (x :: l).filter (fun y => isIntrinsic y)
          = x :: l.filter (fun y => isIntrinsic y) := by
        rw [List.filter_cons]
        simp [hx]
      rw [h1, h2]
      exact stableInsert_intr x hx _ _
        (fun y hy => by
          have h3 := (List.mem_filter.mp hy).2
          simpa using h3)
        (fun y hy => by simpa using (List.mem_filter.mp hy).2)
    · have hxf : isIntrinsic x = false := by
        rw [← Bool.not_eq_true]
        exact hx
      have h1 : (x :: l).filter (fun y => !(isIntrinsic y))
          = x :: l.filter (fun y => !(isIntrinsic y)) := by
        rw [List.filter_cons]
        simp [hxf]
      have h2 : (x :: l).filter (fun y => isIntrinsic y)
          = l.filter (fun y => isIntrinsic y) := by
        rw [List.filter_cons]
        simp [hxf]
      rw [h1, h2, List.cons_append]
      refine stableInsert_min _ x _ ?_
      intro y _
      rw [accel_key_acc hxf]
      exact accel_key_ge y

theorem getKey_none {kvs : List (PyStr × PyStr)} {k : PyStr}
    (h : alistFind kvs k = none) : getKey kvs k = .error .keyError := by
  rw [getKey, h]

theorem getKey_some {kvs : List (PyStr × PyStr)} {k v : PyStr}
    (h : alistFind kvs k = some v) : getKey kvs k = .ok v := by
  rw [getKey, h]

/-! The claims. -/

/-- Claim C1 (corrected): for a well-formed record (printable container id,
JSON-plain slot dict, megabyte-aligned scratch size, well-formed allocation
dicts whose lower-case slot names carry their device family as leading
dot-segment, and reconstructible mounts) whose allocation slot names are
all known to the registry, read_from_string after write_to_string returns
the record unchanged in all fields.  The original claim, quantified over
every record with known slot names only, is refuted by the counterexample
below (an upper-case slot name comes back lower-cased). -/
theorem c1_round_trip (reg : Registry) (r : KernelResourceSpec)
    (hwf : wfRec reg r = true) (_hk : allSlotsKnown reg r = true) :
    (KernelResourceSpec.write_to_string reg r).bind
      (KernelResourceSpec.read_from_string reg) = Except.ok r := by
  have hdev : ∀ a ∈ r.allocations, ∀ q ∈ a.2, devSlotOk a.1 q.1 = true := by
    obtain ⟨_, _, _, _, _, hall, _⟩ := wfRec_spec hwf
    intro a ha q hq
    have hh := ((hall a ha).2.2 q hq).1
    rw [← hh]
    exact devSlotOk_headSeg q.1
  rw [write_to_string_ok reg r hdev]
  exact read_from_string_write reg r hwf

/-- Witness for C1: the demo record round-trips over its registry. -/
theorem c1_round_trip_witness :
    wfRec regDemo recDemo = true ∧ allSlotsKnown regDemo recDemo = true ∧
    (KernelResourceSpec.write_to_string regDemo recDemo).bind
      (KernelResourceSpec.read_from_string regDemo) = Except.ok recDemo :=
  ⟨by decide, by decide, c1_round_trip regDemo recDemo (by decide) (by decide)⟩

/-- Counterexample to C1 as stated: recU's allocation slot name Cpu is in
the registry, yet the parsed-back record differs (the slot name returns
lower-cased), so known slot names alone do not give the round trip. -/
theorem c1_round_trip_counterexample :
    allSlotsKnown regU recU = true ∧
    (KernelResourceSpec.write_to_string regU recU).bind
      (KernelResourceSpec.read_from_string regU) ≠ Except.ok recU := by
  constructor
  · decide
  · decide

/-- Claim C2 (code bug): the claim says a parse-time registry miss drops
exactly the affected allocation entry and never fails the parse.  The code
reads the registry with .get(slot_name, 'count'), so the except-KeyError
handler is dead: a missing slot type is treated as 'count'.  A binary-size
amount (3g) then aborts the whole parse with decimal.InvalidOperation, and
a plain count amount (5) keeps the entry instead of dropping it. -/
theorem c2_registry_miss :
    KernelResourceSpec.read_from_string [] textBytesShares =
      .error PyErr.invalidOperation ∧
    KernelResourceSpec.read_from_string [] textCountShares =
      .ok ⟨("c").toList, [],
        [(("x").toList, [(("x").toList, [(("0").toList, ⟨5, 0⟩)])])], 0, []⟩ := by
  constructor
  · decide
  · decide

/-- Claim C3 (confirmed): a record with an allocation whose slot name does
not carry its device family as prefix (equal, or family followed by a dot)
makes write_to_string raise ValueError; nothing is emitted. -/
theorem c3_prefix_error (reg : Registry) (r : KernelResourceSpec)
    (h : ∃ a ∈ r.allocations, ∃ q ∈ a.2, devSlotOk a.1 q.1 = false) :
    KernelResourceSpec.write_to_string reg r = .error PyErr.valueError := by
  rw [KernelResourceSpec.write_to_string, writeAllocLines_err reg r.allocations h]

/-- Witness for C3: slot mem under device family cpu fails to serialize. -/
theorem c3_prefix_error_witness :
    (∃ a ∈ recBad.allocations, ∃ q ∈ a.2, devSlotOk a.1 q.1 = false) ∧
    KernelResourceSpec.write_to_string [] recBad = .error PyErr.valueError :=
  ⟨by decide, c3_prefix_error [] recBad (by decide)⟩

/-- Claim C4 (confirmed): a text missing MOUNTS, SCRATCH_SIZE or SLOTS in
its key-value pairs makes read_from_string propagate an error to the
caller; no record is returned. -/
theorem c4_missing_mandatory (reg : Registry) (text : PyStr)
    (h : alistFind (kvpairsOf text) mountsKey = none ∨
         alistFind (kvpairsOf text) scratchKey = none ∨
         alistFind (kvpairsOf text) slotsKey = none) :
    ∃ e, KernelResourceSpec.read_from_string reg text = .error e := by
  cases hs : parseSharesAux reg [] (kvpairsOf text) with
  | error e =>
    exact ⟨e, by
      rw [KernelResourceSpec.read_from_string]
      simp only [hs]⟩
  | ok allocs =>
    cases hm : alistFind (kvpairsOf text) mountsKey with
    | none =>
      exact ⟨PyErr.keyError, by
        rw [KernelResourceSpec.read_from_string]
        simp only [hs, getKey_none hm]⟩
    | some mv =>
      have h2 : alistFind (kvpairsOf text) scratchKey = none ∨
          alistFind (kvpairsOf text) slotsKey = none := by
        rcases h with h | h | h
        · rw [hm] at h
          exact Option.noConfusion h
        · exact Or.inl h
        · exact Or.inr h
      cases hpm : parseMounts ((splitOnChar ',' mv).filter (fun m => !m.isEmpty)) with
      | error e =>
        exact ⟨e, by
          rw [KernelResourceSpec.read_from_string]
          simp only [hs, getKey_some hm, hpm]⟩
      | ok mounts =>
        cases hsc : alistFind (kvpairsOf text) scratchKey with
        | none =>
          exact ⟨PyErr.keyError, by
            rw [KernelResourceSpec.read_from_string]
            simp only [hs, getKey_some hm, hpm, getKey_none hsc]⟩
        | some sv =>
          have h3 : alistFind (kvpairsOf text) slotsKey = none := by
            rcases h2 with h2 | h2
            · rw [hsc] at h2
              exact Option.noConfusion h2
            · exact h2
          cases hbs : parseBinarySize sv with
          | none =>
            exact ⟨PyErr.valueError, by
              rw [KernelResourceSpec.read_from_string]
              simp only [hs, getKey_some hm, hpm, getKey_some hsc, hbs]⟩
          | some sc =>
            exact ⟨PyErr.keyError, by
              rw [KernelResourceSpec.read_from_string]
              simp only [hs, getKey_some hm, hpm, getKey_some hsc, hbs,
                getKey_none h3]⟩

/-- Witness for C4: a text with only a CID line fails to parse. -/
theorem c4_missing_mandatory_witness :
    (alistFind (kvpairsOf textC4) mountsKey = none ∨
     alistFind (kvpairsOf textC4) scratchKey = none ∨
     alistFind (kvpairsOf textC4) slotsKey = none) ∧
    ∃ e, KernelResourceSpec.read_from_string [] textC4 = .error e :=
  ⟨by decide, c4_missing_mandatory [] textC4 (by decide)⟩

/-- Claim C5 (confirmed): Mount.from_str fails unless the split on ':'
yields exactly three fields and the permission is recognized; an absolute
source gives BIND, a relative single-segment source gives VOLUME, a
relative multi-segment source or a non-absolute target is an error; and
the four example strings behave as stated. -/
theorem c5_mount_from_str :
    (∀ s : PyStr, (splitOnChar ':' s).length ≠ 3 →
      Mount.from_str s = .error .valueError) ∧
    (∀ s src tgt pm : PyStr, splitOnChar ':' s = [src, tgt, pm] →
      permOfStr pm = none → Mount.from_str s = .error .valueError) ∧
    (∀ (s src tgt pm : PyStr) (pe : MountPerm), splitOnChar ':' s = [src, tgt, pm] →
      permOfStr pm = some pe → (pathOfStr tgt).isAbs = true →
      ((pathOfStr src).isAbs = true → Mount.from_str s =
        .ok ⟨MountTy.bind, some (MountSrc.path (pathOfStr src)),
          pathOfStr tgt, pe, none⟩) ∧
      ((pathOfStr src).isAbs = false → (pathOfStr src).comps.length = 1 →
        Mount.from_str s =
        .ok ⟨MountTy.volume, some (MountSrc.name (strOfPath (pathOfStr src))),
          pathOfStr tgt, pe, none⟩) ∧
      ((pathOfStr src).isAbs = false → (pathOfStr src).comps.length ≠ 1 →
        Mount.from_str s = .error .valueError)) ∧
    (∀ s src tgt pm : PyStr, splitOnChar ':' s = [src, tgt, pm] →
      (pathOfStr tgt).isAbs = false → Mount.from_str s = .error .valueError) ∧
    Mount.from_str (("/data:/workspace:rw").toList) =
      .ok ⟨MountTy.bind, some (MountSrc.path ⟨true, [("data").toList]⟩),
        ⟨true, [("workspace").toList]⟩, MountPerm.read_write, none⟩ ∧
    Mount.from_str (("myvol:/workspace:ro").toList) =
      .ok ⟨MountTy.volume, some (MountSrc.name (("myvol").toList)),
        ⟨true, [("workspace").toList]⟩, MountPerm.read_only, none⟩ ∧
    Mount.from_str (("rel/path:/workspace:ro").toList) = .error .valueError ∧
    Mount.from_str (("/data:rel/target:ro").toList) = .error .valueError := by
  refine ⟨from_str_not_three, ?_, ?_, ?_, by decide, by decide, by decide, by decide⟩
  · intro s src tgt pm hs hp
    exact from_str_perm_none hs hp
  · intro s src tgt pm pe hs hp h2
    exact ⟨fun h1 => from_str_bind hs h1 h2 hp,
      fun h1 hl => from_str_volume hs h1 hl h2 hp,
      fun h1 hl => from_str_multi hs h1 hl⟩
  · intro s src tgt pm hs ht
    exact from_str_bad_target hs ht

/-- Witness for C5: a two-field string is rejected. -/
theorem c5_mount_from_str_witness :
    (splitOnChar ':' (("a:b").toList)).length ≠ 3 ∧
    Mount.from_str (("a:b").toList) = .error .valueError :=
  ⟨by decide, c5_mount_from_str.1 (("a:b").toList) (by decide)⟩

/-- Claim C6 (confirmed): bitmask2set lists exactly the zero-based set bit
positions of the mask, and the two examples evaluate as stated. -/
theorem c6_bitmask2set :
    (∀ mask i : Nat, i ∈ bitmask2set mask ↔ Nat.testBit mask i = true) ∧
    bitmask2set 11 = [0, 1, 3] ∧ bitmask2set 0 = [] := by
  refine ⟨?_, by decide, by decide⟩
  intro mask i
  have hlt : mask < 2 ^ (mask + 1) :=
    lt_trans (Nat.lt_two_pow mask) (Nat.pow_lt_pow_succ (by omega))
  rw [bitmask2set, bitmask2setAux_mem (mask + 1) mask 0 hlt i]
  constructor
  · rintro ⟨j, rfl, hj⟩
    simpa using hj
  · intro hj
    exact ⟨i, by omega, hj⟩

/-- Claim C7 (confirmed): discover_plugins keeps exactly the scanned pairs,
with all non-intrinsic (accelerator) pairs first in discovery order,
followed by the intrinsic (cpu, mem) pairs in discovery order; the example
ordering holds. -/
theorem c7_discover_plugins_order :
    (∀ (α : Type) (scanned : List (PyStr × α)),
      discover_plugins scanned =
        scanned.filter (fun x => !(isIntrinsic x)) ++
          scanned.filter (fun x => isIntrinsic x)) ∧
    discover_plugins
        [(("gpu").toList, 0), (("cpu").toList, 1), (("fpga").toList, 2),
         (("mem").toList, 3)] =
      [(("gpu").toList, 0), (("fpga").toList, 2), (("cpu").toList, 1),
       (("mem").toList, 3)] := by
  refine ⟨?_, by decide⟩
  intro α scanned
  exact stable_sort_filter scanned

/-- Claim C8 (corrected): a byte-typed allocation amount that is a whole
multiple of its display unit (the largest binary unit not exceeding it)
round-trips exactly through the auto-scaled rendering and the binary-size
parser.  The original claim, for whole multiples of any unit, is refuted
below: 1025 * 2^30 is a whole multiple of 2^30 but renders as 1.00t and
parses back as 2^40. -/
theorem c8_bytes_round_trip (reg : Registry) (slot : PyStr) (n : Nat)
    (hb : regGetD reg slot = SlotTy.bytes) (hu : n % displayUnit n = 0) :
    parseAllocVal reg slot (formatS (decTrunc (Dec.ofInt (n : Int)))) =
      .ok (Dec.ofInt (n : Int)) :=
  parseAllocVal_bytes (Dec.ofInt (n : Int)) hb rfl (parseBinarySize_formatS hu)

/-- Witness for C8: 10 * 2^30 bytes renders as 10g and parses back. -/
theorem c8_bytes_round_trip_witness :
    regGetD regBytes slotX = SlotTy.bytes ∧ 10737418240 % displayUnit 10737418240 = 0 ∧
    parseAllocVal regBytes slotX (formatS (decTrunc (Dec.ofInt (10737418240 : Int)))) =
      .ok (Dec.ofInt (10737418240 : Int)) :=
  ⟨by decide, by decide,
    c8_bytes_round_trip regBytes slotX 10737418240 (by decide) (by decide)⟩

/-- Counterexample to C8 as stated: 1025 * 2^30 is a whole multiple of the
2^30 (g) unit, but the rendering picks the 2^40 (t) unit, emits 1.00t, and
the parse returns 2^40 instead of the original value. -/
theorem c8_bytes_round_trip_counterexample :
    regGetD regBytes slotX = SlotTy.bytes ∧
    (1073741824 * 1025 : Int) % ((2 : Int) ^ 30) = 0 ∧
    formatS (decTrunc (Dec.ofInt (1073741824 * 1025 : Int))) = ("1.00t").toList ∧
    parseAllocVal regBytes slotX
        (formatS (decTrunc (Dec.ofInt (1073741824 * 1025 : Int)))) ≠
      .ok (Dec.ofInt (1073741824 * 1025 : Int)) := by
  refine ⟨by decide, by decide, by decide, by decide⟩

/-- Claim C9 (confirmed): a text whose key-value pairs carry no CID entry
still parses (when the rest is valid) and the resulting record's
container_id is the string unknown. -/
theorem c9_missing_cid (reg : Registry) (text : PyStr) (rec : KernelResourceSpec)
    (hn : alistFind (kvpairsOf text) cidKey = none)
    (hok : KernelResourceSpec.read_from_string reg text = .ok rec) :
    rec.container_id = ("unknown").toList := by
  obtain ⟨_, hc⟩ := read_ok_shape reg text rec hok
  rw [hc, hn]
  rfl

/-- Witness for C9: textNoCid parses successfully to a record whose
container_id is unknown. -/
theorem c9_missing_cid_witness :
    alistFind (kvpairsOf textNoCid) cidKey = none ∧
    KernelResourceSpec.read_from_string [] textNoCid = .ok recNoCid ∧
    recNoCid.container_id = ("unknown").toList :=
  ⟨by decide, by decide, c9_missing_cid [] textNoCid recNoCid (by decide) (by decide)⟩

/-- Claim C10 (confirmed): every record read_from_string returns satisfies
the invariant that allocation slot names carry no upper-case character and
every device-family key is its slot names' segment before the first dot
(the whole name when no dot occurs). -/
theorem c10_parse_slot_invariant (reg : Registry) (text : PyStr)
    (rec : KernelResourceSpec)
    (hok : KernelResourceSpec.read_from_string reg text = .ok rec) :
    ∀ a ∈ rec.allocations, ∀ q ∈ a.2,
      (∀ c ∈ q.1, c.isUpper = false) ∧ a.1 = headSeg q.1 := by
  obtain ⟨hs, _⟩ := read_ok_shape reg text rec hok
  exact parseSharesAux_inv reg (kvpairsOf text) [] rec.allocations
    (fun a ha => absurd ha (List.not_mem_nil a)) hs

/-- Witness for C10: the record parsed from textC10 satisfies the
invariant. -/
theorem c10_parse_slot_invariant_witness :
    KernelResourceSpec.read_from_string [] textC10 = .ok recC10 ∧
    (∀ a ∈ recC10.allocations, ∀ q ∈ a.2,
      (∀ c ∈ q.1, c.isUpper = false) ∧ a.1 = headSeg q.1) :=
  ⟨by decide, c10_parse_slot_invariant [] textC10 recC10 (by decide)⟩
